import Mathlib

/-!
Verification of the Vermont local workflow runner against its design
specification.  Each component of the engine (workflow parser, matrix
expander, expression substituter, action resolver, action executor, job
scheduler) is shallowly embedded as executable Lean definitions translated
from the Go sources, and the specified properties are settled as theorems
about those definitions.

Go strings are modelled either as Lean `String`s (where only equality,
append and formatting matter) or as `List Char` (where character-level
scanning matters).  Go maps are modelled as association lists: a concrete
association list represents one iteration order of the map, and theorems
about map-order-dependent code quantify over the list (hence over all
orders).  Go `interface{}` YAML values are modelled by the inductive
`GoVal`.
-/

namespace Vermont

/-- Model of a Go `interface{}` value decoded from YAML, restricted to the
shapes the engine distinguishes: a scalar (all YAML scalars are modelled
as strings, matching their `fmt.Sprintf` stringification), a
`[]interface{}` list of scalars, or a `[]interface{}` list of
`map[string]interface{}` entries with scalar values (the shape of matrix
`include`/`exclude` lists).  Deeper nesting is never distinguished by the
code under verification. -/
inductive YVal where
  | scalar (v : String)
  | list (vs : List String)
  | maps (ms : List (List (String × String)))
deriving DecidableEq, Repr

/-- Association-list lookup, modelling Go map indexing `m[k]` (first
binding wins; Go maps have unique keys, so a well-formed model list has
distinct keys). -/
def alookup {α : Type} (l : List (String × α)) (k : String) : Option α :=
  match l with
  | [] => none
  | p :: rest => if p.1 = k then some p.2 else alookup rest k

theorem alookup_eq_none {α : Type} (l : List (String × α)) (k : String) :
    alookup l k = none ↔ ∀ p ∈ l, p.1 ≠ k := by
  induction l with
  | nil => simp [alookup]
  | cons p rest ih =>
    by_cases h : p.1 = k <;> simp [alookup, h, ih]

theorem alookup_isSome {α : Type} (l : List (String × α)) (k : String) :
    (alookup l k).isSome = true ↔ ∃ p ∈ l, p.1 = k := by
  induction l with
  | nil => simp [alookup]
  | cons p rest ih =>
    by_cases h : p.1 = k <;> simp [alookup, h, ih]

/-! ## Workflow model and parser (pkg/workflow/parser.go)

Translation of the `Workflow`/`Job`/`Step` records and of
`Parser.validate`, `Parser.validateJob`, `Parser.validateStep`.  Only the
fields consulted by validation are carried; YAML decoding itself is an
external effect and is modelled as already done. -/

/-- A workflow step (fields consulted by validation). -/
structure WStep where
  run : String
  uses : String
deriving DecidableEq, Repr

/-- A workflow job: `RunsOn` is a Go `interface{}` (`none` models Go `nil`,
i.e. a missing `runs-on` key). -/
structure WJob where
  runsOn : Option YVal
  steps : List WStep
deriving DecidableEq, Repr

/-- A parsed workflow document. -/
structure Workflow where
  name : String
  jobs : List (String × WJob)
deriving DecidableEq, Repr

/-- Translation of `Parser.validateStep`: a step must have exactly one of
`run`/`uses`. -/
def validateStep (step : WStep) : Option String :=
  if step.run = "" ∧ step.uses = "" then
    some "step must have either 'run' or 'uses'"
  else if step.run ≠ "" ∧ step.uses ≠ "" then
    some "step cannot have both 'run' and 'uses'"
  else
    none

/-- The indexed loop over a job's steps inside `Parser.validateJob`,
wrapping the first step error with its index. -/
def validateStepsFrom (i : Nat) : List WStep → Option String
  | [] => none
  | st :: rest =>
    match validateStep st with
    | some e => some ("step " ++ toString i ++ ": " ++ e)
    | none => validateStepsFrom (i + 1) rest

/-- Translation of `Parser.validateJob`: `runs-on` present, at least one
step, every step valid. -/
def validateJob (job : WJob) : Option String :=
  if job.runsOn = none then some "runs-on is required"
  else if job.steps.length = 0 then some "job must contain at least one step"
  else validateStepsFrom 0 job.steps

/-- The loop over jobs inside `Parser.validate`, wrapping the first job
error with its ID.  The association list order models the Go map
iteration order. -/
def validateJobs : List (String × WJob) → Option String
  | [] => none
  | (jobID, job) :: rest =>
    match validateJob job with
    | some e => some ("job " ++ jobID ++ ": " ++ e)
    | none => validateJobs rest

/-- Translation of `Parser.validate`: name non-empty, at least one job,
every job valid. -/
def validate (wf : Workflow) : Option String :=
  if wf.name = "" then some "workflow name is required"
  else if wf.jobs.length = 0 then some "workflow must contain at least one job"
  else validateJobs wf.jobs

theorem validateStepsFrom_eq_none_iff (steps : List WStep) :
    ∀ i, validateStepsFrom i steps = none ↔ ∀ st ∈ steps, validateStep st = none := by
  induction steps with
  | nil => intro i; simp [validateStepsFrom]
  | cons st rest ih =>
    intro i
    cases h : validateStep st with
    | some e => simp [validateStepsFrom, h]
    | none => simp [validateStepsFrom, h, ih (i + 1)]

theorem validateJobs_eq_none_iff (jobs : List (String × WJob)) :
    validateJobs jobs = none ↔ ∀ p ∈ jobs, validateJob p.2 = none := by
  induction jobs with
  | nil => simp [validateJobs]
  | cons p rest ih =>
    obtain ⟨jobID, job⟩ := p
    cases h : validateJob job with
    | some e => simp [validateJobs, h]
    | none => simp [validateJobs, h, ih]

theorem validateStep_eq_none_iff (st : WStep) :
    validateStep st = none ↔
      ¬ ((st.run = "" ∧ st.uses = "") ∨ (st.run ≠ "" ∧ st.uses ≠ "")) := by
  unfold validateStep
  by_cases h1 : st.run = "" ∧ st.uses = "" <;>
    by_cases h2 : st.run ≠ "" ∧ st.uses ≠ "" <;> simp [h1, h2]

theorem validateJob_eq_none_iff (job : WJob) :
    validateJob job = none ↔
      job.runsOn ≠ none ∧ job.steps ≠ [] ∧
        ∀ st ∈ job.steps, validateStep st = none := by
  unfold validateJob
  by_cases h1 : job.runsOn = none
  · simp [h1]
  · by_cases h2 : job.steps.length = 0
    · simp [h1, h2, List.length_eq_zero.mp h2]
    · have hne : job.steps ≠ [] := by
        intro hc; rw [hc] at h2; exact h2 rfl
      simp [h1, h2, hne, validateStepsFrom_eq_none_iff job.steps 0]

theorem validateStep_ne_none_iff (st : WStep) :
    validateStep st ≠ none ↔
      ((st.run = "" ∧ st.uses = "") ∨ (st.run ≠ "" ∧ st.uses ≠ "")) := by
  rw [Ne, validateStep_eq_none_iff]
  exact not_not

theorem validateJob_ne_none_iff (job : WJob) :
    validateJob job ≠ none ↔
      (job.runsOn = none ∨ job.steps = [] ∨
        ∃ st ∈ job.steps,
          (st.run = "" ∧ st.uses = "") ∨ (st.run ≠ "" ∧ st.uses ≠ "")) := by
  rw [Ne, validateJob_eq_none_iff]
  constructor
  · intro h
    by_cases hr : job.runsOn = none
    · exact Or.inl hr
    right
    by_cases hs : job.steps = []
    · exact Or.inl hs
    right
    have h3 : ¬ ∀ st ∈ job.steps, validateStep st = none := fun hc => h ⟨hr, hs, hc⟩
    push_neg at h3
    obtain ⟨st, hst, hbad⟩ := h3
    exact ⟨st, hst, (validateStep_ne_none_iff st).mp hbad⟩
  · rintro (hr | hs | ⟨st, hst, hbad⟩) ⟨g1, g2, g3⟩
    · exact g1 hr
    · exact g2 hs
    · exact (validateStep_ne_none_iff st).mpr hbad (g3 st hst)

/-- Claim C2: validation fails exactly when the workflow name is empty,
the jobs mapping is empty, some job lacks `runs-on`, some job has zero
steps, or some step has both of `run`/`uses` or neither; a workflow
violating none of these validation rules is accepted. -/
theorem c2_validate_iff (wf : Workflow) :
    validate wf ≠ none ↔
      (wf.name = "" ∨ wf.jobs = [] ∨
        ∃ p ∈ wf.jobs, p.2.runsOn = none ∨ p.2.steps = [] ∨
          ∃ st ∈ p.2.steps,
            (st.run = "" ∧ st.uses = "") ∨ (st.run ≠ "" ∧ st.uses ≠ "")) := by
  unfold validate
  by_cases h1 : wf.name = ""
  · simp [h1]
  · by_cases h2 : wf.jobs.length = 0
    · simp [h1, List.length_eq_zero.mp h2]
    · have hne : wf.jobs ≠ [] := by
        intro hc; rw [hc] at h2; exact h2 rfl
      simp only [if_neg h1, if_neg h2]
      rw [Ne, validateJobs_eq_none_iff]
      constructor
      · intro h
        right; right
        have h3 : ¬ ∀ p ∈ wf.jobs, validateJob p.2 = none := h
        push_neg at h3
        obtain ⟨p, hp, hbad⟩ := h3
        exact ⟨p, hp, (validateJob_ne_none_iff p.2).mp hbad⟩
      · rintro (h | h | ⟨p, hp, hbad⟩)
        · exact absurd h h1
        · exact absurd h hne
        · intro hall
          exact (validateJob_ne_none_iff p.2).mpr hbad (hall p hp)

/-! ## Action reference parsing (pkg/actions/action.go)

Translation of `ParseActionReference`.  Go strings are modelled as lists
of characters so that the splitting functions compute by `decide`/`rfl`. -/

/-- Character-list model of a Go string. -/
abbrev Str := List Char

/-- Translation of Go `strings.Split` for a one-character separator. -/
def goSplit (sep : Char) : Str → List Str
  | [] => [[]]
  | c :: rest =>
    if c = sep then [] :: goSplit sep rest
    else
      match goSplit sep rest with
      | [] => [[c]]
      | p :: ps => (c :: p) :: ps

/-- Translation of Go `strings.Join` for a one-character separator. -/
def goJoin (sep : Char) : List Str → Str
  | [] => []
  | [p] => p
  | p :: ps => p ++ sep :: goJoin sep ps

/-- Translation of Go `path/filepath.Base` (volume names aside): empty
path gives `"."`, trailing slashes are removed, the last component is
returned, and an all-slash path gives `"/"`. -/
def filepathBase (p : Str) : Str :=
  if p = [] then ['.']
  else
    let trimmed := (p.reverse.dropWhile (fun c => c = '/')).reverse
    if trimmed = [] then ['/']
    else (trimmed.reverse.takeWhile (fun c => c ≠ '/')).reverse

/-- The `Action` record produced by `ParseActionReference` (parsed
components only). -/
structure ActionRef where
  reference : Str
  owner : Str
  name : Str
  version : Str
  localPath : Str
deriving DecidableEq, Repr

/-- Translation of `ParseActionReference`: local references (starting
with `./` or `/`) keep their path; remote references are split on `@`
requiring exactly two parts, then the owner/name part is split on `/`
requiring at least two parts, the name being the re-joined remainder. -/
def ParseActionReference (reference : Str) : Except Str ActionRef :=
  if reference = [] then
    .error ("action reference cannot be empty".data)
  else if "./".data.isPrefixOf reference ∨ "/".data.isPrefixOf reference then
    .ok { reference := reference, owner := "local".data,
          name := filepathBase reference, version := [], localPath := reference }
  else
    match goSplit '@' reference with
    | [ownerName, version] =>
      match goSplit '/' ownerName with
      | owner :: np0 :: nps =>
        .ok { reference := reference, owner := owner,
              name := goJoin '/' (np0 :: nps), version := version, localPath := [] }
      | _ =>
        .error ("invalid action reference format: ".data ++ reference ++
          " (expected owner/name@version)".data)
    | _ =>
      .error ("invalid action reference format: ".data ++ reference ++
        " (expected owner/name@version)".data)

theorem goSplit_ne_nil (sep : Char) (s : Str) : goSplit sep s ≠ [] := by
  induction s with
  | nil => simp [goSplit]
  | cons c rest ih =>
    by_cases h : c = sep
    · simp [goSplit, h]
    · simp only [goSplit, if_neg h]
      cases hg : goSplit sep rest <;> simp

theorem goSplit_of_not_mem (sep : Char) (s : Str) (h : sep ∉ s) :
    goSplit sep s = [s] := by
  induction s with
  | nil => simp [goSplit]
  | cons c rest ih =>
    have hc : c ≠ sep := fun hc => h (hc ▸ List.mem_cons_self c rest)
    have hr : sep ∉ rest := fun hr => h (List.mem_cons_of_mem c hr)
    simp [goSplit, hc, ih hr]

theorem goSplit_append (sep : Char) (a b : Str) (h : sep ∉ a) :
    goSplit sep (a ++ sep :: b) = a :: goSplit sep b := by
  induction a with
  | nil => simp [goSplit]
  | cons c a' ih =>
    have hc : c ≠ sep := fun hc => h (hc ▸ List.mem_cons_self c a')
    have ha : sep ∉ a' := fun ha => h (List.mem_cons_of_mem c ha)
    simp [goSplit, hc, ih ha]

theorem goJoin_goSplit (sep : Char) (s : Str) :
    goJoin sep (goSplit sep s) = s := by
  induction s with
  | nil => simp [goSplit, goJoin]
  | cons c rest ih =>
    by_cases h : c = sep
    · subst h
      simp only [goSplit, if_pos rfl]
      cases hg : goSplit c rest with
      | nil => exact absurd hg (goSplit_ne_nil c rest)
      | cons q qs =>
        rw [hg] at ih
        simp [goJoin, ih]
    · simp only [goSplit, if_neg h]
      cases hg : goSplit sep rest with
      | nil => exact absurd hg (goSplit_ne_nil sep rest)
      | cons q qs =>
        rw [hg] at ih
        cases qs with
        | nil => simp_all [goJoin]
        | cons q' qs' => simp_all [goJoin]

theorem length_goSplit (sep : Char) (s : Str) :
    (goSplit sep s).length = s.count sep + 1 := by
  induction s with
  | nil => simp [goSplit]
  | cons c rest ih =>
    by_cases h : c = sep
    · simp [goSplit, h, ih, List.count_cons]
    · simp only [goSplit, if_neg h]
      cases hg : goSplit sep rest with
      | nil => exact absurd hg (goSplit_ne_nil sep rest)
      | cons q qs =>
        rw [hg] at ih
        simp only [List.length_cons] at ih ⊢
        have : (c :: rest).count sep = rest.count sep := by
          simp [List.count_cons, h]
        rw [this, ← ih]

/-- Claim C6, counterexample: a remote reference containing a second `@`
(which splitting on the last `@` would accept, with `name = "n@v1"` under
a first-`/` split of the base) is rejected: the implementation splits on
every `@` and requires exactly two parts. -/
theorem c6_counterexample :
    ('@' ∈ "o/n@v1@v2".data) ∧
      ParseActionReference "o/n@v1@v2".data =
        .error "invalid action reference format: o/n@v1@v2 (expected owner/name@version)".data := by
  constructor
  · decide
  · rfl

/-- Claim C6, amended: a non-local reference parses exactly when it
contains exactly one `@` and its base contains a `/`.  (1) `owner ++ "/" ++
name ++ "@" ++ ref` parses into those components, where `name` may itself
contain `/` (sub-directory actions); (2) a reference whose `@`-count is
not exactly one is rejected; (3) a reference whose base contains no `/`
is rejected. -/
theorem c6_amended :
    (∀ owner name ver : Str,
      owner ≠ [] → owner ≠ ['.'] → '/' ∉ owner →
      '@' ∉ owner → '@' ∉ name → '@' ∉ ver →
      ParseActionReference (owner ++ '/' :: name ++ '@' :: ver) =
        .ok { reference := owner ++ '/' :: name ++ '@' :: ver, owner := owner,
              name := name, version := ver, localPath := [] }) ∧
    (∀ s : Str,
      ¬ "./".data.isPrefixOf s → ¬ "/".data.isPrefixOf s →
      s.count '@' ≠ 1 →
      ∃ msg, ParseActionReference s = .error msg) ∧
    (∀ base ver : Str,
      ¬ "./".data.isPrefixOf (base ++ '@' :: ver) →
      ¬ "/".data.isPrefixOf (base ++ '@' :: ver) →
      '@' ∉ base → '@' ∉ ver → '/' ∉ base →
      ∃ msg, ParseActionReference (base ++ '@' :: ver) = .error msg) := by
  refine ⟨?_, ?_, ?_⟩
  · intro owner name ver hne hdot hslash hao han hav
    have href_ne : owner ++ '/' :: name ++ '@' :: ver ≠ [] := by
      cases owner <;> simp
    have hnotdot : ¬ "./".data.isPrefixOf (owner ++ '/' :: name ++ '@' :: ver) := by
      cases owner with
      | nil => exact absurd rfl hne
      | cons o1 orest =>
        cases orest with
        | nil =>
          intro hpre
          simp only [List.cons_append, List.nil_append] at hpre
          have : o1 = '.' := by
            have := (List.isPrefixOf_iff_prefix.mp hpre)
            rcases this with ⟨t, ht⟩
            simpa using congrArg (fun l => l.head?) ht.symm
          exact hdot (by rw [this])
        | cons o2 orest' =>
          intro hpre
          have hpre' := List.isPrefixOf_iff_prefix.mp hpre
          rcases hpre' with ⟨t, ht⟩
          simp only [List.cons_append] at ht
          have h1 : '.' = o1 := by
            have := congrArg (fun l => l.head?) ht
            simpa using this
          have h2 : '/' = o2 := by
            have := congrArg (fun l => l.tail.head?) ht
            simpa using this
          exact hslash (by rw [h2]; exact List.mem_cons_of_mem o1 (List.mem_cons_self o2 orest'))
    have hnotslash : ¬ "/".data.isPrefixOf (owner ++ '/' :: name ++ '@' :: ver) := by
      cases owner with
      | nil => exact absurd rfl hne
      | cons o1 orest =>
        intro hpre
        have hpre' := List.isPrefixOf_iff_prefix.mp hpre
        rcases hpre' with ⟨t, ht⟩
        simp only [List.cons_append] at ht
        have h1 : '/' = o1 := by
          have := congrArg (fun l => l.head?) ht
          simpa using this
        exact hslash (by rw [h1]; exact List.mem_cons_self o1 orest)
    have hbase_noat : '@' ∉ owner ++ '/' :: name := by
      intro hmem
      rcases List.mem_append.mp hmem with h | h
      · exact hao h
      · rcases List.mem_cons.mp h with h | h
        · exact absurd h.symm (by decide)
        · exact han h
    have hsplit : goSplit '@' (owner ++ '/' :: name ++ '@' :: ver) =
        [owner ++ '/' :: name, ver] := by
      have : owner ++ '/' :: name ++ '@' :: ver = (owner ++ '/' :: name) ++ '@' :: ver := by
        simp
      rw [this, goSplit_append '@' (owner ++ '/' :: name) ver hbase_noat,
        goSplit_of_not_mem '@' ver hav]
    have hsplit2 : goSplit '/' (owner ++ '/' :: name) = owner :: goSplit '/' name :=
      goSplit_append '/' owner name hslash
    unfold ParseActionReference
    rw [if_neg href_ne]
    rw [if_neg (by push_neg; exact ⟨hnotdot, hnotslash⟩)]
    rw [hsplit]
    cases hg : goSplit '/' name with
    | nil => exact absurd hg (goSplit_ne_nil '/' name)
    | cons q qs =>
      rw [hg] at hsplit2
      have hj : goJoin '/' (q :: qs) = name := by
        rw [← hg]; exact goJoin_goSplit '/' name
      simp [hsplit2, hj]
  · intro s hdot hslash hcount
    unfold ParseActionReference
    by_cases hnil : s = []
    · rw [if_pos hnil]; exact ⟨_, rfl⟩
    rw [if_neg hnil, if_neg (by push_neg; exact ⟨hdot, hslash⟩)]
    have hlen : (goSplit '@' s).length ≠ 2 := by
      rw [length_goSplit]
      omega
    rcases hg : goSplit '@' s with _ | ⟨a, _ | ⟨b, _ | ⟨c, t⟩⟩⟩
    · exact ⟨_, rfl⟩
    · exact ⟨_, rfl⟩
    · rw [hg] at hlen; simp at hlen
    · exact ⟨_, rfl⟩
  · intro base ver hdot hslash hab hav hsb
    unfold ParseActionReference
    have hnil : base ++ '@' :: ver ≠ [] := by cases base <;> simp
    rw [if_neg hnil, if_neg (by push_neg; exact ⟨hdot, hslash⟩)]
    rw [goSplit_append '@' base ver hab, goSplit_of_not_mem '@' ver hav]
    simp only [goSplit_of_not_mem '/' base hsb]
    exact ⟨_, rfl⟩

/-- Witness for `c6_amended`: `"o/n/d@v1"` parses with owner `"o"`,
sub-directory name `"n/d"` and version `"v1"`; `"ond"` (no `@`) and
`"ond@v1"` (base without `/`) are rejected. -/
theorem c6_amended_witness :
    (ParseActionReference "o/n/d@v1".data =
      .ok { reference := "o/n/d@v1".data, owner := "o".data,
            name := "n/d".data, version := "v1".data, localPath := [] }) ∧
    (∃ msg, ParseActionReference "ond".data = .error msg) ∧
    (∃ msg, ParseActionReference "ond@v1".data = .error msg) := by
  refine ⟨?_, ?_, ?_⟩
  · exact c6_amended.1 "o".data "n/d".data "v1".data (by decide) (by decide)
      (by decide) (by decide) (by decide) (by decide)
  · exact c6_amended.2.1 "ond".data (by decide) (by decide) (by decide)
  · exact c6_amended.2.2 "ond".data "v1".data (by decide) (by decide) (by decide)
      (by decide) (by decide)

/-! ## Expression substitution (pkg/actions/template.go)

Translation of `TemplateProcessor.ProcessTemplate` and
`evaluateExpression`.  The Go regular expression
`\$\{\{\s*([^}]+)\s*\}\}` matches a dollar, two opening braces, a
non-empty run of characters other than a closing brace, and two closing
braces; `ProcessTemplate` replaces each successive leftmost match by the
value of the trimmed inner expression. -/

/-- Whitespace recognised by Go `strings.TrimSpace` and by `\s` in the
token regular expression (ASCII range). -/
def isSpace (c : Char) : Bool :=
  c = ' ' || c = '\t' || c = '\n' || c = '\r' || c = '\x0b' || c = '\x0c'

/-- Translation of Go `strings.TrimSpace`. -/
def goTrimSpace (s : Str) : Str :=
  ((s.dropWhile isSpace).reverse.dropWhile isSpace).reverse

/-- The `TemplateProcessor` record: action inputs (already stringified),
environment, and the step-output table keyed by `"stepId.outputName"`. -/
structure TemplateProcessor where
  inputs : List (Str × Str)
  env : List (Str × Str)
  outputs : List (Str × Str)
deriving DecidableEq, Repr

/-- Generic association-list lookup used by the `Str`-keyed models. -/
def slookup {α : Type} (l : List (Str × α)) (k : Str) : Option α :=
  match l with
  | [] => none
  | p :: rest => if p.1 = k then some p.2 else slookup rest k

/-- Translation of `TemplateProcessor.evaluateExpression`: resolves
`inputs.*`, `env.*`, `steps.*.outputs.*`, `runner.*`, `github.*` and
`hashFiles(...)`; any other expression is returned as `"$\x7b" ++ expr ++
"\x7d"` (Go `fmt.Sprintf` with `"${%s}"`). -/
def evaluateExpression (tp : TemplateProcessor) (expr0 : Str) : Str :=
  let expr := goTrimSpace expr0
  if "inputs.".data.isPrefixOf expr then
    match slookup tp.inputs (expr.drop 7) with
    | some v => v
    | none => []
  else if "env.".data.isPrefixOf expr then
    match slookup tp.env (expr.drop 4) with
    | some v => v
    | none => []
  else if "steps.".data.isPrefixOf expr && decide (".outputs.".data <:+: expr) then
    match goSplit '.' expr with
    | _ :: p1 :: p2 :: p3 :: _ =>
      if p2 = "outputs".data then
        match slookup tp.outputs (p1 ++ '.' :: p3) with
        | some v => v
        | none => []
      else []
    | _ => []
  else if "runner.".data.isPrefixOf expr then
    let prop := expr.drop 7
    if prop = "os".data then "Linux".data
    else if prop = "arch".data then "X64".data
    else if prop = "name".data then "Vermont Runner".data
    else if prop = "tool-cache".data then "/opt/hostedtoolcache".data
    else []
  else if "github.".data.isPrefixOf expr then
    let prop := expr.drop 7
    if prop = "actor".data then "vermont-runner".data
    else if prop = "repository".data then "local/repository".data
    else if prop = "event_name".data then "push".data
    else if prop = "sha".data then "abc123".data
    else if prop = "ref".data then "refs/heads/main".data
    else []
  else if "hashFiles(".data.isPrefixOf expr && ")".data.isSuffixOf expr then
    "abc123hash".data
  else
    '$' :: '\x7b' :: (expr ++ ['\x7d'])

theorem length_dropWhile_le (p : Char → Bool) (l : Str) :
    (l.dropWhile p).length ≤ l.length := by
  induction l with
  | nil => simp
  | cons c rest ih =>
    by_cases hc : p c
    · rw [List.dropWhile_cons, if_pos hc]
      exact Nat.le_succ_of_le ih
    · rw [List.dropWhile_cons, if_neg hc]

/-- The scanner behind `ProcessTemplate`: at each position, a token
`$\x7b\x7b <nonempty run of non-brace characters> \x7d\x7d` is replaced by
the evaluated trimmed expression; otherwise one character is emitted and
scanning continues (a failed partial match cannot hide a later token
start, since a token starts with `$` and the skipped characters are `$`
followed by braces). -/
def processAux (tp : TemplateProcessor) (s : Str) : Str :=
  match s with
  | [] => []
  | c :: rest =>
    if c = '$' ∧ rest.head? = some '\x7b' ∧ rest.tail.head? = some '\x7b' then
      if rest.tail.tail.takeWhile (fun ch => ch != '\x7d') ≠ [] ∧
          (rest.tail.tail.dropWhile (fun ch => ch != '\x7d')).head? = some '\x7d' ∧
          (rest.tail.tail.dropWhile (fun ch => ch != '\x7d')).tail.head? = some '\x7d' then
        evaluateExpression tp
            (goTrimSpace (rest.tail.tail.takeWhile (fun ch => ch != '\x7d'))) ++
          processAux tp (rest.tail.tail.dropWhile (fun ch => ch != '\x7d')).tail.tail
      else
        c :: processAux tp rest
    else
      c :: processAux tp rest
termination_by s.length
decreasing_by
  · have h1 := length_dropWhile_le (fun ch => ch != '\x7d') rest.tail.tail
    have h2 : ((rest.tail.tail.dropWhile (fun ch => ch != '\x7d')).tail.tail).length =
        (rest.tail.tail.dropWhile (fun ch => ch != '\x7d')).length - 1 - 1 := by
      simp [List.length_tail]
    have h3 : rest.tail.tail.length = rest.length - 1 - 1 := by
      simp [List.length_tail]
    simp only [List.length_cons]
    omega
  · simp
  · simp

/-- Translation of `TemplateProcessor.ProcessTemplate`. -/
def ProcessTemplate (tp : TemplateProcessor) (text : Str) : Str :=
  processAux tp text

theorem head?_dropWhile_not {p : Char → Bool} :
    ∀ (l : Str) (x : Char), (l.dropWhile p).head? = some x → p x = false := by
  intro l
  induction l with
  | nil => intro x h; simp [List.dropWhile] at h
  | cons c rest ih =>
    intro x h
    by_cases hc : p c
    · rw [List.dropWhile_cons, if_pos hc] at h
      exact ih x h
    · rw [List.dropWhile_cons, if_neg hc] at h
      simp at h
      rw [← h]
      exact Bool.eq_false_iff.mpr hc

theorem dropWhile_eq_self_of_head {p : Char → Bool} (l : Str)
    (h : ∀ x, l.head? = some x → p x = false) : l.dropWhile p = l := by
  cases l with
  | nil => simp
  | cons c rest =>
    have := h c rfl
    simp [List.dropWhile_cons, this]

theorem getLast?_dropWhile {p : Char → Bool} :
    ∀ l : Str, l.dropWhile p ≠ [] → (l.dropWhile p).getLast? = l.getLast? := by
  intro l
  induction l with
  | nil => intro h; simp at h
  | cons c rest ih =>
    intro h
    by_cases hc : p c
    · rw [List.dropWhile_cons, if_pos hc] at h ⊢
      rw [ih h]
      have hrest : rest ≠ [] := by
        intro hx
        rw [hx] at h
        simp at h
      cases rest with
      | nil => exact absurd rfl hrest
      | cons d ds => rw [List.getLast?_cons_cons]
    · rw [List.dropWhile_cons, if_neg hc]

theorem goTrimSpace_head (s : Str) :
    ∀ x, (goTrimSpace s).head? = some x → isSpace x = false := by
  intro x hx
  unfold goTrimSpace at hx
  rw [List.head?_reverse] at hx
  set l2 := (s.dropWhile isSpace).reverse.dropWhile isSpace with hl2
  have hne : l2 ≠ [] := by
    intro hc
    rw [hc] at hx
    simp at hx
  rw [getLast?_dropWhile _ hne, List.getLast?_reverse] at hx
  exact head?_dropWhile_not s x hx

theorem goTrimSpace_getLast (s : Str) :
    ∀ x, (goTrimSpace s).getLast? = some x → isSpace x = false := by
  intro x hx
  unfold goTrimSpace at hx
  rw [List.getLast?_reverse] at hx
  exact head?_dropWhile_not _ x hx

theorem goTrimSpace_idem (s : Str) : goTrimSpace (goTrimSpace s) = goTrimSpace s := by
  have h1 : (goTrimSpace s).dropWhile isSpace = goTrimSpace s :=
    dropWhile_eq_self_of_head _ (goTrimSpace_head s)
  have h2 : (goTrimSpace s).reverse.dropWhile isSpace = (goTrimSpace s).reverse := by
    apply dropWhile_eq_self_of_head
    intro x hx
    rw [List.head?_reverse] at hx
    exact goTrimSpace_getLast s x hx
  calc goTrimSpace (goTrimSpace s)
      = (((goTrimSpace s).dropWhile isSpace).reverse.dropWhile isSpace).reverse := rfl
    _ = ((goTrimSpace s).reverse.dropWhile isSpace).reverse := by rw [h1]
    _ = (goTrimSpace s).reverse.reverse := by rw [h2]
    _ = goTrimSpace s := List.reverse_reverse _

theorem takeWhile_append_stop (e t : Str) (he : ∀ ch ∈ e, ch ≠ '\x7d') :
    (e ++ '\x7d' :: t).takeWhile (fun ch => ch != '\x7d') = e := by
  induction e with
  | nil => simp [List.takeWhile_cons]
  | cons c rest ih =>
    have hc : (c != '\x7d') = true := by
      simpa using he c (List.mem_cons_self c rest)
    have hrest : ∀ ch ∈ rest, ch ≠ '\x7d' := fun ch h => he ch (List.mem_cons_of_mem c h)
    simp only [List.cons_append, List.takeWhile_cons, hc, if_true, ih hrest]

theorem dropWhile_append_stop (e t : Str) (he : ∀ ch ∈ e, ch ≠ '\x7d') :
    (e ++ '\x7d' :: t).dropWhile (fun ch => ch != '\x7d') = '\x7d' :: t := by
  induction e with
  | nil => simp [List.dropWhile_cons]
  | cons c rest ih =>
    have hc : (c != '\x7d') = true := by
      simpa using he c (List.mem_cons_self c rest)
    have hrest : ∀ ch ∈ rest, ch ≠ '\x7d' := fun ch h => he ch (List.mem_cons_of_mem c h)
    simp only [List.cons_append, List.dropWhile_cons, hc, if_true, ih hrest]

/-- Core evaluation lemma: a single well-formed token whose trimmed
expression matches none of the handled context prefixes is replaced by
`"$\x7b" ++ expr ++ "\x7d"`. -/
theorem processAux_single_token (tp : TemplateProcessor) (e : Str)
    (hne : e ≠ [])
    (hbrace : ∀ ch ∈ e, ch ≠ '\x7d')
    (h1 : ¬ "inputs.".data.isPrefixOf (goTrimSpace e))
    (h2 : ¬ "env.".data.isPrefixOf (goTrimSpace e))
    (h3 : ¬ "steps.".data.isPrefixOf (goTrimSpace e))
    (h4 : ¬ "runner.".data.isPrefixOf (goTrimSpace e))
    (h5 : ¬ "github.".data.isPrefixOf (goTrimSpace e))
    (h6 : ¬ "hashFiles(".data.isPrefixOf (goTrimSpace e)) :
    ProcessTemplate tp ('$' :: '\x7b' :: '\x7b' :: (e ++ ['\x7d', '\x7d'])) =
      '$' :: '\x7b' :: (goTrimSpace e ++ ['\x7d']) := by
  have hTW := takeWhile_append_stop e ['\x7d'] hbrace
  have hDW := dropWhile_append_stop e ['\x7d'] hbrace
  have heval : evaluateExpression tp (goTrimSpace e) =
      '$' :: '\x7b' :: (goTrimSpace e ++ ['\x7d']) := by
    unfold evaluateExpression
    rw [goTrimSpace_idem]
    rw [if_neg (by simpa using h1)]
    rw [if_neg (by simpa using h2)]
    rw [if_neg (by simp [h3])]
    rw [if_neg (by simpa using h4)]
    rw [if_neg (by simpa using h5)]
    rw [if_neg (by simp [h6])]
  show processAux tp ('$' :: '\x7b' :: '\x7b' :: (e ++ ['\x7d', '\x7d'])) = _
  rw [processAux.eq_def]
  simp only [List.head?_cons, List.tail_cons]
  rw [if_pos (by simp)]
  rw [show ((e ++ ['\x7d', '\x7d'] : Str)) = e ++ '\x7d' :: ['\x7d'] from rfl] at hTW hDW ⊢
  rw [hTW, hDW]
  simp only [List.head?_cons, List.tail_cons]
  rw [if_pos (by simp [hne])]
  rw [heval]
  simp [processAux]

/-- Claim C5, counterexample: the token `$\x7b\x7b foo \x7d\x7d`, whose
expression `foo` matches no supported context prefix, is replaced by the
string `$\x7bfoo\x7d` — not by the empty string as the claim states. -/
theorem c5_counterexample :
    ProcessTemplate ⟨[], [], []⟩ "$\x7b\x7b foo \x7d\x7d".data = "$\x7bfoo\x7d".data ∧
      "$\x7bfoo\x7d".data ≠ ([] : Str) := by
  constructor
  · have h := processAux_single_token ⟨[], [], []⟩ " foo ".data (by decide) (by decide)
      (by decide) (by decide) (by decide) (by decide) (by decide) (by decide)
    calc ProcessTemplate ⟨[], [], []⟩ "$\x7b\x7b foo \x7d\x7d".data
        = ProcessTemplate ⟨[], [], []⟩
            ('$' :: '\x7b' :: '\x7b' :: (" foo ".data ++ ['\x7d', '\x7d'])) := rfl
      _ = '$' :: '\x7b' :: (goTrimSpace " foo ".data ++ ['\x7d']) := h
      _ = "$\x7bfoo\x7d".data := by decide
  · decide

/-- Claim C5, amended: a token whose trimmed expression matches none of
the prefixes actually handled by `evaluateExpression` (`inputs.`, `env.`,
`steps.`, `runner.`, `github.`, `hashFiles(` — note that `matrix.` and
`needs.` are not handled by this processor and fall in the same default
case) is replaced by `"$\x7b" ++ expr ++ "\x7d"`, not by the empty
string. -/
theorem c5_amended (tp : TemplateProcessor) (e : Str)
    (hne : e ≠ [])
    (hbrace : ∀ ch ∈ e, ch ≠ '\x7d')
    (h1 : ¬ "inputs.".data.isPrefixOf (goTrimSpace e))
    (h2 : ¬ "env.".data.isPrefixOf (goTrimSpace e))
    (h3 : ¬ "steps.".data.isPrefixOf (goTrimSpace e))
    (h4 : ¬ "runner.".data.isPrefixOf (goTrimSpace e))
    (h5 : ¬ "github.".data.isPrefixOf (goTrimSpace e))
    (h6 : ¬ "hashFiles(".data.isPrefixOf (goTrimSpace e)) :
    ProcessTemplate tp ('$' :: '\x7b' :: '\x7b' :: (e ++ ['\x7d', '\x7d'])) =
      '$' :: '\x7b' :: (goTrimSpace e ++ ['\x7d']) :=
  processAux_single_token tp e hne hbrace h1 h2 h3 h4 h5 h6

/-- Witness for `c5_amended` at the expression `foo` with an empty
context. -/
theorem c5_amended_witness :
    ProcessTemplate ⟨[], [], []⟩ ('$' :: '\x7b' :: '\x7b' :: ("foo".data ++ ['\x7d', '\x7d'])) =
      '$' :: '\x7b' :: (goTrimSpace "foo".data ++ ['\x7d']) :=
  c5_amended ⟨[], [], []⟩ "foo".data (by decide) (by decide) (by decide) (by decide)
    (by decide) (by decide) (by decide) (by decide)

/-! ## Matrix expansion with include/exclude (main.go)

Translation of `generateMatrixCombinations`, `matchesCombination`,
`matchesBaseDimensions` and `contains`.  A matrix combination is an
association list of parameter name to scalar value, the list order
recording the order in which the Cartesian recursion assigns keys. -/

/-- A matrix combination (`map[string]interface{}` of scalar values). -/
abbrev Combo := List (String × String)

/-- Opaque stand-in for the scalar rendering of a map-typed YAML value;
such values are never produced by the workflows the claims quantify over,
but the normalisation `case []interface{}` in the Go code admits them as
dimension values, so the model must be total. -/
def mapValueRepr (m : List (String × String)) : String :=
  "map[" ++ String.intercalate " " (m.map (fun p => p.1 ++ ":" ++ p.2)) ++ "]"

/-- The `include` entries extracted by the key-partition loop of
`generateMatrixCombinations`. -/
def includeEntries (matrix : List (String × YVal)) : List Combo :=
  matrix.flatMap (fun p =>
    if p.1 = "include" then
      match p.2 with
      | .maps ms => ms
      | _ => []
    else [])

/-- The `exclude` entries extracted by the key-partition loop. -/
def excludeEntries (matrix : List (String × YVal)) : List Combo :=
  matrix.flatMap (fun p =>
    if p.1 = "exclude" then
      match p.2 with
      | .maps ms => ms
      | _ => []
    else [])

/-- Dimension value normalisation: a `[]interface{}` is kept, any other
value becomes a single-element list. -/
def normalizeDimValue : YVal → List String
  | .list vs => vs
  | .scalar v => [v]
  | .maps ms => ms.map mapValueRepr

/-- The dimension entries (all keys except `include`/`exclude`) with
normalised value lists. -/
def dimEntries (matrix : List (String × YVal)) : List (String × List String) :=
  (matrix.filter (fun p => p.1 ≠ "include" ∧ p.1 ≠ "exclude")).map
    (fun p => (p.1, normalizeDimValue p.2))

/-- Translation of `matchesCombination`: every key of the pattern appears
in the combination with an equal value (a missing key, Go `nil`, never
equals a scalar). -/
def matchesCombination (combination pattern : Combo) : Bool :=
  pattern.all (fun p => alookup combination p.1 == some p.2)

/-- Translation of `matchesBaseDimensions`: on every base-dimension key
the include entry carries, the existing combination has an equal value. -/
def matchesBaseDimensions (existing inc : Combo) (baseDimensions : List String) : Bool :=
  baseDimensions.all (fun d =>
    match alookup inc d with
    | none => true
    | some v => alookup existing d == some v)

/-- The recursive Cartesian generator of `generateMatrixCombinations`:
at each leaf the combination is kept unless it matches some exclude
entry. -/
def generateCartesian (excludeList : List Combo) :
    List (String × List String) → Combo → List Combo
  | [], current =>
    if excludeList.any (fun ex => matchesCombination current ex) then []
    else [current]
  | (k, vs) :: rest, current =>
    vs.flatMap (fun v => generateCartesian excludeList rest (current ++ [(k, v)]))

/-- Go map assignment `m[k] = v` on an association list: update in place
or append. -/
def assocSet (c : Combo) (k : String) (v : String) : Combo :=
  if (alookup c k).isSome then c.map (fun q => if q.1 = k then (k, v) else q)
  else c ++ [(k, v)]

/-- Merging an include entry into a matching combination: only keys that
are not base dimensions are copied (`if !contains(keys, k)`). -/
def mergeIncludeEntry (keys : List String) (existing inc : Combo) : Combo :=
  inc.foldl (fun acc p => if keys.contains p.1 then acc else assocSet acc p.1 p.2) existing

/-- One pass of the include loop body: find the first combination
matching the include on the base dimensions and merge into it; report
whether a match was found. -/
def applyIncludeOne (keys : List String) (inc : Combo) :
    List Combo → List Combo × Bool
  | [] => ([], false)
  | c :: cs =>
    if matchesBaseDimensions c inc keys then (mergeIncludeEntry keys c inc :: cs, true)
    else
      match applyIncludeOne keys inc cs with
      | (cs', found) => (c :: cs', found)

/-- The include loop of `generateMatrixCombinations`: merge into the
first matching combination, otherwise append as a new combination. -/
def applyIncludes (keys : List String) : List Combo → List Combo → List Combo
  | combos, [] => combos
  | combos, inc :: rest =>
    match applyIncludeOne keys inc combos with
    | (combos', true) => applyIncludes keys combos' rest
    | (_, false) => applyIncludes keys (combos ++ [inc]) rest

/-- Translation of `generateMatrixCombinations`: partition the matrix
into dimensions, includes and excludes; generate the Cartesian product
with exclusion; then fold the includes. -/
def generateMatrixCombinations (matrix : List (String × YVal)) : List Combo :=
  applyIncludes ((dimEntries matrix).map Prod.fst)
    (generateCartesian (excludeEntries matrix) (dimEntries matrix) [])
    (includeEntries matrix)

theorem filter_flatMap {α β : Type} (l : List α) (f : α → List β) (p : β → Bool) :
    (l.flatMap f).filter p = l.flatMap (fun x => (f x).filter p) := by
  induction l with
  | nil => simp
  | cons x rest ih => simp [List.flatMap_cons, List.filter_append, ih]

theorem generateCartesian_eq_filter (excl : List Combo) :
    ∀ (dims : List (String × List String)) (current : Combo),
      generateCartesian excl dims current =
        (generateCartesian [] dims current).filter
          (fun c => !(excl.any (fun ex => matchesCombination c ex))) := by
  intro dims
  induction dims with
  | nil =>
    intro current
    by_cases h : excl.any (fun ex => matchesCombination current ex)
    · simp [generateCartesian, h]
    · simp [generateCartesian, h]
  | cons d rest ih =>
    intro current
    obtain ⟨k, vs⟩ := d
    simp only [generateCartesian]
    rw [filter_flatMap]
    apply List.flatMap_congr
    intro v _
    exact ih (current ++ [(k, v)])

theorem generateCartesian_pure_length :
    ∀ (dims : List (String × List String)) (current : Combo),
      (generateCartesian [] dims current).length =
        (dims.map (fun d => d.2.length)).prod := by
  intro dims
  induction dims with
  | nil => intro current; simp [generateCartesian]
  | cons d rest ih =>
    intro current
    obtain ⟨k, vs⟩ := d
    simp only [generateCartesian, List.map_cons, List.prod_cons]
    rw [List.length_flatMap]
    have hmap : (vs.map (List.length ∘ fun v => generateCartesian [] rest (current ++ [(k, v)]))) =
        vs.map (fun _ => (rest.map (fun d => d.2.length)).prod) := by
      apply List.map_congr_left
      intro v _
      simp only [Function.comp_apply]
      exact ih (current ++ [(k, v)])
    rw [hmap, List.map_const', List.sum_replicate, smul_eq_mul]

theorem length_filter_not_add (p : Combo → Bool) (l : List Combo) :
    (l.filter (fun x => !p x)).length + (l.filter p).length = l.length := by
  induction l with
  | nil => simp
  | cons x rest ih =>
    by_cases h : p x <;> simp [List.filter_cons, h, ← ih] <;> omega

theorem length_filter_or (p q : Combo → Bool) (l : List Combo) :
    (l.filter (fun x => p x || q x)).length =
      (l.filter p).length + (l.filter (fun x => q x && !p x)).length := by
  induction l with
  | nil => simp
  | cons x rest ih =>
    by_cases hp : p x <;> by_cases hq : q x <;>
      simp [List.filter_cons, hp, hq, ih] <;> omega

theorem filter_any_length (P : List Combo) (excl : List Combo)
    (hEach : ∀ ex ∈ excl, (P.filter (fun c => matchesCombination c ex)).length = 1)
    (hDisj : excl.Pairwise (fun e1 e2 => ∀ c ∈ P,
      ¬(matchesCombination c e1 = true ∧ matchesCombination c e2 = true))) :
    (P.filter (fun c => excl.any (fun ex => matchesCombination c ex))).length =
      excl.length := by
  induction excl with
  | nil => simp
  | cons e es ih =>
    have hhead := (List.pairwise_cons.mp hDisj).1
    have htail := (List.pairwise_cons.mp hDisj).2
    have h1 : (P.filter (fun c => matchesCombination c e)).length = 1 :=
      hEach e (List.mem_cons_self e es)
    have hcongr : P.filter (fun c =>
        (es.any (fun ex => matchesCombination c ex)) && !(matchesCombination c e)) =
        P.filter (fun c => es.any (fun ex => matchesCombination c ex)) := by
      apply List.filter_congr
      intro c hc
      by_cases hany : es.any (fun ex => matchesCombination c ex)
      · simp only [hany, Bool.true_and]
        obtain ⟨ex, hex, hm⟩ := List.any_eq_true.mp hany
        have := hhead ex hex c hc
        have hnm : matchesCombination c e = false := by
          by_contra hcon
          exact this ⟨Bool.of_not_eq_false hcon, hm⟩
        simp [hnm]
      · simp only [Bool.not_eq_true] at hany
        simp [hany]
    have := length_filter_or (fun c => matchesCombination c e)
      (fun c => es.any (fun ex => matchesCombination c ex)) P
    have harr : (P.filter (fun c => (e :: es).any (fun ex => matchesCombination c ex))).length =
        (P.filter (fun c => matchesCombination c e ||
          es.any (fun ex => matchesCombination c ex))).length := rfl
    rw [harr, this, hcongr, h1,
      ih (fun ex hex => hEach ex (List.mem_cons_of_mem e hex)) htail]
    simp [Nat.add_comm]

theorem applyIncludeOne_no_match (keys : List String) (inc : Combo)
    (combos : List Combo)
    (h : ∀ c ∈ combos, matchesBaseDimensions c inc keys = false) :
    applyIncludeOne keys inc combos = (combos, false) := by
  induction combos with
  | nil => rfl
  | cons c cs ih =>
    have hc := h c (List.mem_cons_self c cs)
    have hcs : ∀ c' ∈ cs, matchesBaseDimensions c' inc keys = false :=
      fun c' hc' => h c' (List.mem_cons_of_mem c hc')
    simp [applyIncludeOne, hc, ih hcs]

theorem applyIncludes_all_append (keys : List String) :
    ∀ (incs : List Combo) (combos : List Combo),
      (∀ inc ∈ incs, ∀ c ∈ combos, matchesBaseDimensions c inc keys = false) →
      incs.Pairwise (fun a b => matchesBaseDimensions a b keys = false) →
      applyIncludes keys combos incs = combos ++ incs := by
  intro incs
  induction incs with
  | nil => intro combos _ _; simp [applyIncludes]
  | cons inc rest ih =>
    intro combos h1 h2
    have hnone := applyIncludeOne_no_match keys inc combos
      (fun c hc => h1 inc (List.mem_cons_self inc rest) c hc)
    simp only [applyIncludes, hnone]
    have hpair := List.pairwise_cons.mp h2
    rw [ih (combos ++ [inc]) ?_ hpair.2]
    · simp
    · intro inc' hinc' c hc
      rcases List.mem_append.mp hc with hca | hcb
      · exact h1 inc' (List.mem_cons_of_mem inc hinc') c hca
      · have : c = inc := List.mem_singleton.mp hcb
        rw [this]
        exact hpair.1 inc' hinc'

/-- Claim C3: for a matrix whose `E` exclude entries each remove exactly
one Cartesian-product combination (with pairwise distinct victims) and
whose `I` include entries are disjoint from the product and from each
other on the base dimensions, `generateMatrixCombinations` produces
exactly `∏ dᵢ − E + I` combinations, where the `dᵢ` are the normalised
dimension sizes; a combination is removed exactly when every key of some
exclude entry appears in it with an equal value, and disjoint include
entries are appended as new combinations. -/
theorem c3_matrix_cardinality (matrix : List (String × YVal)) (E I : Nat)
    (hE : (excludeEntries matrix).length = E)
    (hI : (includeEntries matrix).length = I)
    (hEach : ∀ ex ∈ excludeEntries matrix,
      ((generateCartesian [] (dimEntries matrix) []).filter
        (fun c => matchesCombination c ex)).length = 1)
    (hDisj : (excludeEntries matrix).Pairwise (fun e1 e2 =>
      ∀ c ∈ generateCartesian [] (dimEntries matrix) [],
        ¬(matchesCombination c e1 = true ∧ matchesCombination c e2 = true)))
    (hIncP : ∀ inc ∈ includeEntries matrix,
      ∀ c ∈ generateCartesian [] (dimEntries matrix) [],
        matchesBaseDimensions c inc ((dimEntries matrix).map Prod.fst) = false)
    (hIncPair : (includeEntries matrix).Pairwise
      (fun a b => matchesBaseDimensions a b ((dimEntries matrix).map Prod.fst) = false)) :
    (generateMatrixCombinations matrix).length =
      ((dimEntries matrix).map (fun d => d.2.length)).prod - E + I := by
  unfold generateMatrixCombinations
  rw [generateCartesian_eq_filter]
  have hsub : ∀ c ∈ (generateCartesian [] (dimEntries matrix) []).filter
      (fun c => !((excludeEntries matrix).any (fun ex => matchesCombination c ex))),
      c ∈ generateCartesian [] (dimEntries matrix) [] := by
    intro c hc
    exact (List.mem_filter.mp hc).1
  rw [applyIncludes_all_append ((dimEntries matrix).map Prod.fst) (includeEntries matrix)
    ((generateCartesian [] (dimEntries matrix) []).filter
      (fun c => !((excludeEntries matrix).any (fun ex => matchesCombination c ex))))
    (fun inc hinc c hc => hIncP inc hinc c (hsub c hc)) hIncPair]
  rw [List.length_append]
  have hsplit : ((generateCartesian [] (dimEntries matrix) []).filter
        (fun c => !((excludeEntries matrix).any (fun ex => matchesCombination c ex)))).length +
      ((generateCartesian [] (dimEntries matrix) []).filter
        (fun c => (excludeEntries matrix).any (fun ex => matchesCombination c ex))).length =
      (generateCartesian [] (dimEntries matrix) []).length :=
    length_filter_not_add _ _
  have hany := filter_any_length (generateCartesian [] (dimEntries matrix) [])
    (excludeEntries matrix) hEach hDisj
  have hplen := generateCartesian_pure_length (dimEntries matrix) []
  rw [hE] at hany
  rw [hI]
  omega

/-- Witness for `c3_matrix_cardinality`: a 2×2 matrix with one exclude
removing exactly one combination and one disjoint include yields
`2·2 − 1 + 1 = 4` combinations. -/
theorem c3_matrix_cardinality_witness :
    (generateMatrixCombinations
      [("os", .list ["u", "a"]), ("ver", .list ["1", "2"]),
       ("exclude", .maps [[("os", "u"), ("ver", "1")]]),
       ("include", .maps [[("os", "w")]])]).length =
      ((dimEntries
        [("os", .list ["u", "a"]), ("ver", .list ["1", "2"]),
         ("exclude", .maps [[("os", "u"), ("ver", "1")]]),
         ("include", .maps [[("os", "w")]])]).map (fun d => d.2.length)).prod - 1 + 1 :=
  c3_matrix_cardinality _ 1 1 (by decide) (by decide) (by decide) (by decide)
    (by decide) (by decide)

/-! ## Matrix expansion in the package form (pkg/workflow/matrix.go)

Translation of `generateCombinationsFromMap` /
`generateCombinationsRecursive`, `formatMatrixCombination` and the
expanded-job-ID construction of `expandMatrixJob`.  This implementation
handles no `include`/`exclude` keys.  Go map iteration order is
unspecified: an association list models one possible order, and theorems
quantify over the list, hence over every order. -/

/-- Translation of the value normalisation in
`generateCombinationsFromMap`: a `[]interface{}` value is kept as the
value list (even when empty), any other value becomes a single-element
list. -/
def normalizePkgValue : YVal → List String
  | .list vs => vs
  | .scalar v => [v]
  | .maps ms => ms.map mapValueRepr

/-- Translation of `generateCombinationsRecursive`: assign each variable
in turn (the list order models the map iteration order) and emit one
combination per complete assignment. -/
def generateCombinationsRecursive : List (String × List String) → List Combo
  | [] => [[]]
  | (k, vs) :: rest =>
    vs.flatMap (fun v => (generateCombinationsRecursive rest).map (fun c => (k, v) :: c))

/-- Translation of `generateCombinationsFromMap`: an empty matrix map
yields the single empty combination, otherwise all assignments of the
normalised value lists. -/
def generateCombinationsFromMap (matrixMap : List (String × YVal)) : List Combo :=
  if matrixMap.isEmpty then [[]]
  else generateCombinationsRecursive (matrixMap.map (fun p => (p.1, normalizePkgValue p.2)))

/-- Claim C9, counterexample: a matrix with one dimension whose value is
the empty list yields zero combinations, so the matrix job is replaced by
zero expanded jobs — not at least one as the claim states. -/
theorem c9_counterexample :
    generateCombinationsFromMap [("os", .list [])] = [] := rfl

theorem generateCombinationsRecursive_ne_nil
    (vars : List (String × List String)) (h : ∀ p ∈ vars, p.2 ≠ []) :
    generateCombinationsRecursive vars ≠ [] := by
  induction vars with
  | nil => simp [generateCombinationsRecursive]
  | cons p rest ih =>
    obtain ⟨k, vs⟩ := p
    have hvs : vs ≠ [] := h (k, vs) (List.mem_cons_self _ _)
    have hrest : generateCombinationsRecursive rest ≠ [] :=
      ih (fun q hq => h q (List.mem_cons_of_mem _ hq))
    simp only [generateCombinationsRecursive, ne_eq, List.flatMap_eq_nil_iff, not_forall]
    cases vs with
    | nil => exact absurd rfl hvs
    | cons v vtail =>
      refine ⟨v, List.mem_cons_self _ _, ?_⟩
      simp [hrest]

/-- Claim C9, amended: matrix expansion yields at least one combination
provided no dimension value normalises to an empty list (an empty matrix
mapping yields exactly one empty combination, and a scalar dimension
value always yields a one-element list); a dimension carrying an empty
`[]interface{}` yields zero combinations. -/
theorem c9_amended (matrixMap : List (String × YVal))
    (h : ∀ p ∈ matrixMap, normalizePkgValue p.2 ≠ []) :
    1 ≤ (generateCombinationsFromMap matrixMap).length := by
  unfold generateCombinationsFromMap
  by_cases hm : matrixMap.isEmpty
  · simp [hm]
  · rw [if_neg hm]
    have hne : generateCombinationsRecursive
        (matrixMap.map (fun p => (p.1, normalizePkgValue p.2))) ≠ [] := by
      apply generateCombinationsRecursive_ne_nil
      intro q hq
      obtain ⟨p, hp, hpq⟩ := List.mem_map.mp hq
      rw [← hpq]
      exact h p hp
    cases hg : generateCombinationsRecursive
        (matrixMap.map (fun p => (p.1, normalizePkgValue p.2))) with
    | nil => exact absurd hg hne
    | cons c cs => simp

/-- Witness for `c9_amended`: one scalar-list dimension yields at least
one combination. -/
theorem c9_amended_witness :
    1 ≤ (generateCombinationsFromMap [("os", .list ["u"])]).length :=
  c9_amended [("os", .list ["u"])] (by decide)

/-- Translation of `formatMatrixCombination`: parts `key: value` in map
iteration order (the model's list order), joined by `", "`. -/
def formatMatrixCombination (combination : Combo) : String :=
  String.intercalate ", " (combination.map (fun p => p.1 ++ ": " ++ p.2))

/-- The expanded job ID scheme of `expandMatrixJob`:
`fmt.Sprintf("%s (%s)", jobID, formatMatrixCombination(combination))`. -/
def expandedJobID (jobID : String) (combination : Combo) : String :=
  jobID ++ " (" ++ formatMatrixCombination combination ++ ")"

/-- The list of expanded IDs produced by the combination loop of
`expandMatrixJob`. -/
def expandMatrixJobIDs (jobID : String) (combos : List Combo) : List String :=
  combos.map (expandedJobID jobID)

/-- Claim C8, counterexample: the combination `{a: 1, b: 2}` is a single
Go map, whose two possible iteration orders are modelled by the two
association lists below; `formatMatrixCombination` renders them
differently — so the assigned ID is not determined by the combination,
the keys are not guaranteed to be in sorted order (the second rendering
lists `b` before `a`), and two expansions of the same workflow may
produce different IDs. -/
theorem c8_counterexample :
    formatMatrixCombination [("a", "1"), ("b", "2")] ≠
        formatMatrixCombination [("b", "2"), ("a", "1")] ∧
      formatMatrixCombination [("b", "2"), ("a", "1")] = "b: 2, a: 1" := by
  constructor
  · decide
  · rfl

/-- Claim C8, amended: each expanded job is assigned the ID
`"<original_id> (<key1>: <v1>, <key2>: <v2>, …)"` with the keys in Go
map iteration order — which is neither sorted nor stable across
expansions — and for any fixed iteration order the assigned IDs are
pairwise distinct whenever the rendered combinations are pairwise
distinct (the original job ID being a common prefix). -/
theorem c8_amended (jobID : String) (combos : List Combo) :
    (expandMatrixJobIDs jobID combos = combos.map (fun combination =>
      jobID ++ " (" ++
        String.intercalate ", " (combination.map (fun p => p.1 ++ ": " ++ p.2)) ++ ")")) ∧
    (∀ c1 c2 : Combo, formatMatrixCombination c1 ≠ formatMatrixCombination c2 →
      expandedJobID jobID c1 ≠ expandedJobID jobID c2) := by
  constructor
  · rfl
  · intro c1 c2 hne heq
    apply hne
    have hdata := congrArg String.data heq
    simp only [expandedJobID, String.data_append] at hdata
    have h1 := List.append_cancel_right hdata
    have h2 := List.append_cancel_left h1
    cases hf1 : formatMatrixCombination c1 with
    | mk d1 =>
      cases hf2 : formatMatrixCombination c2 with
      | mk d2 =>
        rw [hf1, hf2] at h2
        exact congrArg String.mk h2

/-- Witness for `c8_amended`: two distinct single-key combinations give
distinct expanded IDs. -/
theorem c8_amended_witness :
    expandedJobID "build" [("a", "1")] ≠ expandedJobID "build" [("b", "2")] :=
  (c8_amended "build" []).2 [("a", "1")] [("b", "2")] (by decide)

/-! ## Action input validation and environment (pkg/actions/executor.go)

Translation of `validateInputs` and `createActionEnvironment`.  The Go
environment map is an association list built by repeated map assignment
(`assocSet`); each helper below is one statement block of
`createActionEnvironment`, applied in the source order. -/

/-- An `ActionInput` metadata record. -/
structure ActionInput where
  required : Bool
  dflt : String
deriving DecidableEq, Repr

/-- The parts of an `Action` consulted by `createActionEnvironment`:
its reference, resolved path, and the `runs.env` mapping of its metadata
(`[]` models absent metadata). -/
structure ActionInfo where
  reference : String
  localPath : String
  runsEnv : List (String × String)
deriving DecidableEq, Repr

/-- An environment map (Go `map[string]string`). -/
abbrev EnvMap := List (String × String)

/-- Translation of `validateInputs`: the first metadata input that is
required, not provided, and without a default produces the error. -/
def validateInputs (inputDefs : List (String × ActionInput))
    (inputs : List (String × String)) : Option String :=
  match inputDefs with
  | [] => none
  | (name, d) :: rest =>
    if d.required ∧ alookup inputs name = none ∧ d.dflt = "" then
      some ("required input '" ++ name ++ "' not provided")
    else validateInputs rest inputs

/-- The `INPUT_<UPPER_SNAKE_NAME>` mangling:
`strings.ToUpper(strings.ReplaceAll(name, "-", "_"))`. -/
def mangleInputName (name : String) : String :=
  "INPUT_" ++ String.mk ((name.data.map (fun c => if c = '-' then '_' else c)).map Char.toUpper)

/-- A sequence of Go map assignments `env[k] = v` (the `for k, v := range`
copy loops). -/
def applyEnvList (l : List (String × String)) (env : EnvMap) : EnvMap :=
  l.foldl (fun acc p => assocSet acc p.1 p.2) env

/-- The input-export loop: `env[INPUT_<mangled>] = fmt.Sprintf("%v", value)`. -/
def applyInputsEnv (inputs : List (String × String)) (env : EnvMap) : EnvMap :=
  inputs.foldl (fun acc p => assocSet acc (mangleInputName p.1) p.2) env

/-- The `actions/checkout` token special case: when the reference contains
`actions/checkout`, no `token` input was provided, and `GITHUB_TOKEN` is
non-empty in the environment, export it as `INPUT_TOKEN`. -/
def applyCheckoutTokenDefault (action : ActionInfo)
    (inputs : List (String × String)) (env : EnvMap) : EnvMap :=
  if "actions/checkout".data <:+: action.reference.data then
    if alookup inputs "token" = none then
      if (alookup env "GITHUB_TOKEN").getD "" ≠ "" then
        assocSet env "INPUT_TOKEN" ((alookup env "GITHUB_TOKEN").getD "")
      else env
    else env
  else env

/-- The Go pattern `if env[k] == "" { env[k] = v }`. -/
def setIfEmpty (env : EnvMap) (k v : String) : EnvMap :=
  if (alookup env k).getD "" = "" then assocSet env k v else env

/-- The `GITHUB_WORKSPACE` default: the configured `_VERMONT_WORK_DIR`
when non-empty, else `/workspace`. -/
def setWorkspaceDefault (env : EnvMap) : EnvMap :=
  if (alookup env "GITHUB_WORKSPACE").getD "" = "" then
    assocSet env "GITHUB_WORKSPACE"
      (if (alookup env "_VERMONT_WORK_DIR").getD "" ≠ "" then
        (alookup env "_VERMONT_WORK_DIR").getD ""
      else "/workspace")
  else env

/-- Translation of `createActionEnvironment`, composing the statement
blocks in source order: copy the base environment, export the provided
inputs, the checkout token special case, `GITHUB_ACTION` /
`GITHUB_ACTION_PATH`, the GitHub defaults, and finally the metadata
`runs.env` entries. -/
def createActionEnvironment (action : ActionInfo)
    (inputs : List (String × String)) (baseEnv : EnvMap) : EnvMap :=
  applyEnvList action.runsEnv
    (setIfEmpty
      (setIfEmpty
        (setIfEmpty
          (setIfEmpty
            (setIfEmpty
              (setIfEmpty
                (setWorkspaceDefault
                  (assocSet
                    (assocSet
                      (applyCheckoutTokenDefault action inputs
                        (applyInputsEnv inputs (applyEnvList baseEnv [])))
                      "GITHUB_ACTION" action.reference)
                    "GITHUB_ACTION_PATH" action.localPath))
                "GITHUB_REPOSITORY" "owner/repo")
              "GITHUB_REF" "refs/heads/main")
            "GITHUB_SHA" "0000000000000000000000000000000000000000")
          "GITHUB_EVENT_NAME" "workflow_dispatch")
        "RUNNER_OS" "Linux")
      "RUNNER_ARCH" "X64")

theorem alookup_append {α : Type} (a b : List (String × α)) (k : String) :
    alookup (a ++ b) k = (alookup a k).or (alookup b k) := by
  induction a with
  | nil => simp [alookup]
  | cons p rest ih =>
    by_cases h : p.1 = k <;> simp [alookup, h, ih]

theorem alookup_replace (c : EnvMap) (k v k' : String) :
    alookup (c.map (fun q => if q.1 = k then (k, v) else q)) k' =
      if k = k' then (if (alookup c k).isSome then some v else none)
      else alookup c k' := by
  induction c with
  | nil => by_cases h : k = k' <;> simp [alookup, h]
  | cons p rest ih =>
    by_cases hpk : p.1 = k
    · have hmap : (fun q => if q.1 = k then (k, v) else q) p = (k, v) := by
        simp [hpk]
      by_cases hk' : k = k'
      · subst hk'
        simp [List.map_cons, hmap, alookup, hpk]
      · have hp' : ¬ p.1 = k' := by rw [hpk]; exact hk'
        simp only [List.map_cons, hmap, alookup, if_neg hk', if_neg hp']
        rw [ih, if_neg hk']
    · have hmap : (fun q => if q.1 = k then (k, v) else q) p = p := by
        simp [hpk]
      have hRc : alookup (p :: rest) k = alookup rest k := by
        simp [alookup, hpk]
      by_cases hp' : p.1 = k'
      · have hkk' : ¬ k = k' := by
          intro h
          rw [h] at hpk
          exact hpk hp'
        simp only [List.map_cons, hmap, alookup, if_pos hp', if_neg hkk']
      · simp only [List.map_cons, hmap, alookup, if_neg hp']
        rw [ih]
        simp [hpk]

theorem alookup_assocSet (c : EnvMap) (k v k' : String) :
    alookup (assocSet c k v) k' = if k = k' then some v else alookup c k' := by
  unfold assocSet
  by_cases hk : (alookup c k).isSome
  · rw [if_pos hk, alookup_replace]
    by_cases hkk' : k = k'
    · subst hkk'
      simp [hk]
    · simp [hkk']
  · rw [if_neg hk, alookup_append]
    by_cases hkk' : k = k'
    · subst hkk'
      have hnone : alookup c k = none := by
        cases h : alookup c k with
        | none => rfl
        | some x => rw [h] at hk; simp at hk
      simp [hnone, alookup]
    · cases h : alookup c k' <;> simp [alookup, h, hkk']

theorem alookup_applyEnvList :
    ∀ (l : List (String × String)) (env : EnvMap) (k : String),
      alookup (applyEnvList l env) k = (alookup l.reverse k).or (alookup env k) := by
  intro l
  induction l with
  | nil => intro env k; simp [applyEnvList, alookup]
  | cons p rest ih =>
    intro env k
    have hstep : applyEnvList (p :: rest) env = applyEnvList rest (assocSet env p.1 p.2) := rfl
    rw [hstep, ih, List.reverse_cons, alookup_append, Option.or_assoc]
    congr 1
    rw [alookup_assocSet]
    by_cases h : p.1 = k <;> simp [alookup, h]

theorem applyInputsEnv_eq (inputs : List (String × String)) (env : EnvMap) :
    applyInputsEnv inputs env =
      applyEnvList (inputs.map (fun p => (mangleInputName p.1, p.2))) env := by
  unfold applyInputsEnv applyEnvList
  rw [List.foldl_map]

theorem alookup_setIfEmpty_ne (env : EnvMap) (k v X : String) (h : k ≠ X) :
    alookup (setIfEmpty env k v) X = alookup env X := by
  unfold setIfEmpty
  by_cases hc : (alookup env k).getD "" = ""
  · rw [if_pos hc, alookup_assocSet, if_neg h]
  · rw [if_neg hc]

theorem alookup_setWorkspaceDefault_ne (env : EnvMap) (X : String)
    (h : "GITHUB_WORKSPACE" ≠ X) :
    alookup (setWorkspaceDefault env) X = alookup env X := by
  unfold setWorkspaceDefault
  by_cases hc : (alookup env "GITHUB_WORKSPACE").getD "" = ""
  · rw [if_pos hc, alookup_assocSet, if_neg h]
  · rw [if_neg hc]

theorem alookup_applyCheckoutTokenDefault (action : ActionInfo)
    (inputs : List (String × String)) (env : EnvMap) (X : String)
    (h : X = "INPUT_TOKEN" → alookup inputs "token" ≠ none) :
    alookup (applyCheckoutTokenDefault action inputs env) X = alookup env X := by
  unfold applyCheckoutTokenDefault
  by_cases h1 : "actions/checkout".data <:+: action.reference.data
  · rw [if_pos h1]
    by_cases h2 : alookup inputs "token" = none
    · rw [if_pos h2]
      by_cases h3 : (alookup env "GITHUB_TOKEN").getD "" ≠ ""
      · rw [if_pos h3, alookup_assocSet]
        have hX : "INPUT_TOKEN" ≠ X := by
          intro hc
          exact h hc.symm h2
        rw [if_neg hX]
      · rw [if_neg h3]
    · rw [if_neg h2]
  · rw [if_neg h1]

theorem string_head_ne {s t : String} (h : s.data.head? ≠ t.data.head?) : s ≠ t := by
  intro he
  rw [he] at h
  exact h rfl

theorem mangle_head (n : String) : (mangleInputName n).data.head? = some 'I' := by
  unfold mangleInputName
  rw [String.data_append]
  rfl

/-- Master pass-through: for a key that is none of the fixed keys set by
`createActionEnvironment` after the input-export loop, the final lookup
is the input-export binding, else the base-environment binding, else the
metadata `runs.env` binding is also excluded by hypothesis. -/
theorem alookup_createActionEnvironment (action : ActionInfo)
    (inputs : List (String × String)) (baseEnv : EnvMap) (X : String)
    (hI : X.data.head? = some 'I')
    (hRuns : ∀ q ∈ action.runsEnv, q.1 ≠ X)
    (hTok : X = "INPUT_TOKEN" → alookup inputs "token" ≠ none) :
    alookup (createActionEnvironment action inputs baseEnv) X =
      ((alookup (inputs.map (fun p => (mangleInputName p.1, p.2))).reverse X).or
        (alookup baseEnv.reverse X)) := by
  have hne : ∀ t : String, t.data.head? ≠ some 'I' → t ≠ X := by
    intro t ht hc
    rw [hc] at ht
    exact ht hI
  unfold createActionEnvironment
  rw [alookup_applyEnvList]
  have hRunsNone : alookup action.runsEnv.reverse X = none := by
    rw [alookup_eq_none]
    intro q hq
    exact hRuns q (List.mem_reverse.mp hq)
  rw [hRunsNone, Option.none_or]
  rw [alookup_setIfEmpty_ne _ _ _ _ (hne "RUNNER_ARCH" (by decide))]
  rw [alookup_setIfEmpty_ne _ _ _ _ (hne "RUNNER_OS" (by decide))]
  rw [alookup_setIfEmpty_ne _ _ _ _ (hne "GITHUB_EVENT_NAME" (by decide))]
  rw [alookup_setIfEmpty_ne _ _ _ _ (hne "GITHUB_SHA" (by decide))]
  rw [alookup_setIfEmpty_ne _ _ _ _ (hne "GITHUB_REF" (by decide))]
  rw [alookup_setIfEmpty_ne _ _ _ _ (hne "GITHUB_REPOSITORY" (by decide))]
  rw [alookup_setWorkspaceDefault_ne _ _ (hne "GITHUB_WORKSPACE" (by decide))]
  rw [alookup_assocSet, if_neg (hne "GITHUB_ACTION_PATH" (by decide))]
  rw [alookup_assocSet, if_neg (hne "GITHUB_ACTION" (by decide))]
  rw [alookup_applyCheckoutTokenDefault _ _ _ _ hTok]
  rw [applyInputsEnv_eq, alookup_applyEnvList, alookup_applyEnvList]
  simp [alookup]

theorem alookup_of_nodup_mem {α : Type} :
    ∀ (l : List (String × α)), (l.map Prod.fst).Nodup →
      ∀ p ∈ l, alookup l p.1 = some p.2 := by
  intro l
  induction l with
  | nil => intro _ p hp; simp at hp
  | cons q rest ih =>
    intro hnd p hp
    have hnd2 : q.1 ∉ rest.map Prod.fst ∧ (rest.map Prod.fst).Nodup := by
      rw [List.map_cons, List.nodup_cons] at hnd
      exact hnd
    rcases List.mem_cons.mp hp with hq | hrest
    · rw [hq]
      simp [alookup]
    · have hne : q.1 ≠ p.1 := by
        intro hc
        exact hnd2.1 (hc ▸ List.mem_map_of_mem Prod.fst hrest)
      simp only [alookup, if_neg hne]
      exact ih hnd2.2 p hrest

theorem validateInputs_eq_none_iff (inputDefs : List (String × ActionInput))
    (inputs : List (String × String)) :
    validateInputs inputDefs inputs = none ↔
      ∀ p ∈ inputDefs, p.2.required = true →
        alookup inputs p.1 ≠ none ∨ p.2.dflt ≠ "" := by
  induction inputDefs with
  | nil => simp [validateInputs]
  | cons q rest ih =>
    obtain ⟨name, d⟩ := q
    by_cases hc : d.required ∧ alookup inputs name = none ∧ d.dflt = ""
    · simp only [validateInputs, if_pos hc]
      constructor
      · intro h; exact absurd h (by simp)
      · intro h
        have := h (name, d) (List.mem_cons_self _ _) hc.1
        rcases this with ha | hb
        · exact absurd hc.2.1 ha
        · exact absurd hc.2.2 hb
    · simp only [validateInputs, if_neg hc, ih]
      constructor
      · intro h p hp hreq
        rcases List.mem_cons.mp hp with hq | hrest
        · rw [hq]
          simp only at hreq ⊢
          rw [hq] at hreq
          by_cases h1 : alookup inputs name = none
          · by_cases h2 : d.dflt = ""
            · exact absurd ⟨hreq, h1, h2⟩ hc
            · exact Or.inr h2
          · exact Or.inl h1
        · exact h p hrest hreq
      · intro h p hp hreq
        exact h p (List.mem_cons_of_mem _ hp) hreq

/-- Claim C7, counterexample: a metadata-declared optional input with a
non-empty default that is not provided by the calling step is NOT
exported to the environment — `INPUT_GREETING` is absent although the
claim says every declared input is exported with its default (or the
empty string). -/
theorem c7_counterexample :
    validateInputs [("greeting", ⟨false, "hi"⟩)] [] = none ∧
      alookup (createActionEnvironment ⟨"o/a@v", "/cache/o/a/v", []⟩ [] [])
        (mangleInputName "greeting") = none := by
  constructor
  · rfl
  · rfl

/-- Claim C7, amended: (1) input validation fails exactly when some
required input is neither provided nor has a non-empty metadata default;
(2) every input provided via `with` is exported to the environment as
`INPUT_<UPPER_SNAKE_NAME>` (dashes mapped to underscores) with its
value; (3) an input that is not provided is not exported at all — the
metadata default and the empty-string fallback of the claim are never
written into the environment.  (Side conditions exclude collisions of
the mangled name with other environment writes.) -/
theorem c7_amended :
    (∀ (inputDefs : List (String × ActionInput)) (inputs : List (String × String)),
      validateInputs inputDefs inputs = none ↔
        ∀ p ∈ inputDefs, p.2.required = true →
          alookup inputs p.1 ≠ none ∨ p.2.dflt ≠ "") ∧
    (∀ (action : ActionInfo) (inputs : List (String × String)) (baseEnv : EnvMap),
      (inputs.map (fun p => mangleInputName p.1)).Nodup →
      (∀ p ∈ inputs, mangleInputName p.1 = "INPUT_TOKEN" → p.1 = "token") →
      (∀ p ∈ inputs, ∀ q ∈ action.runsEnv, q.1 ≠ mangleInputName p.1) →
      ∀ p ∈ inputs,
        alookup (createActionEnvironment action inputs baseEnv)
          (mangleInputName p.1) = some p.2) ∧
    (∀ (action : ActionInfo) (inputs : List (String × String)) (baseEnv : EnvMap)
        (name : String),
      (∀ p ∈ inputs, mangleInputName p.1 ≠ mangleInputName name) →
      (∀ q ∈ baseEnv, q.1 ≠ mangleInputName name) →
      (∀ q ∈ action.runsEnv, q.1 ≠ mangleInputName name) →
      mangleInputName name ≠ "INPUT_TOKEN" →
      alookup (createActionEnvironment action inputs baseEnv)
        (mangleInputName name) = none) := by
  refine ⟨validateInputs_eq_none_iff, ?_, ?_⟩
  · intro action inputs baseEnv hnd hTok hRuns p hp
    have hTok' : mangleInputName p.1 = "INPUT_TOKEN" →
        alookup inputs "token" ≠ none := by
      intro hm
      have hpt := hTok p hp hm
      intro hnone
      rw [alookup_eq_none] at hnone
      exact hnone p hp hpt
    rw [alookup_createActionEnvironment action inputs baseEnv _
      (mangle_head p.1) (fun q hq => hRuns p hp q hq) hTok']
    have hmem : (mangleInputName p.1, p.2) ∈
        (inputs.map (fun p => (mangleInputName p.1, p.2))).reverse := by
      rw [List.mem_reverse]
      exact List.mem_map_of_mem _ hp
    have hnd' : ((inputs.map (fun p => (mangleInputName p.1, p.2))).reverse.map
        Prod.fst).Nodup := by
      rw [List.map_reverse, List.nodup_reverse, List.map_map]
      simpa using hnd
    have := alookup_of_nodup_mem _ hnd' (mangleInputName p.1, p.2) hmem
    simp only at this
    rw [this]
    rfl
  · intro action inputs baseEnv name hInp hBase hRuns hTokNe
    rw [alookup_createActionEnvironment action inputs baseEnv _
      (mangle_head name) hRuns (fun hc => absurd hc hTokNe)]
    have h1 : alookup (inputs.map (fun p => (mangleInputName p.1, p.2))).reverse
        (mangleInputName name) = none := by
      rw [alookup_eq_none]
      intro q hq
      obtain ⟨p, hp, hpq⟩ := List.mem_map.mp (List.mem_reverse.mp hq)
      rw [← hpq]
      exact hInp p hp
    have h2 : alookup baseEnv.reverse (mangleInputName name) = none := by
      rw [alookup_eq_none]
      intro q hq
      exact hBase q (List.mem_reverse.mp hq)
    rw [h1, h2]
    rfl

/-- Witness for `c7_amended`: a provided dashed input is exported as
`INPUT_MY_INPUT`; an unprovided declared input `greeting` is not
exported; a required unprovided defaultless input fails validation. -/
theorem c7_amended_witness :
    (validateInputs [("name", ⟨true, ""⟩)] [("name", "x")] = none ↔
      ∀ p ∈ [("name", (⟨true, ""⟩ : ActionInput))], p.2.required = true →
        alookup [("name", "x")] p.1 ≠ none ∨ p.2.dflt ≠ "") ∧
    (alookup
      (createActionEnvironment ⟨"o/a@v", "/p", []⟩ [("my-input", "v")] [])
      (mangleInputName "my-input") = some "v") ∧
    (alookup
      (createActionEnvironment ⟨"o/a@v", "/p", []⟩ [("other", "w")] [])
      (mangleInputName "greeting") = none) := by
  refine ⟨c7_amended.1 [("name", ⟨true, ""⟩)] [("name", "x")], ?_, ?_⟩
  · exact c7_amended.2.1 ⟨"o/a@v", "/p", []⟩ [("my-input", "v")] []
      (by decide) (by decide) (by decide) ("my-input", "v") (by decide)
  · exact c7_amended.2.2 ⟨"o/a@v", "/p", []⟩ [("other", "w")] [] "greeting"
      (by decide) (by decide) (by decide) (by decide)

/-! ## Scheduler dependency validation (pkg/executor/executor.go)

Translation of `JobScheduler.validateDependencies` and `hasCycle`.  The
job map is an association list `jobID ↦ dependency list` (one iteration
order of the Go map); `visited` and `recStack` model the two
`map[string]bool` sets.  Go recursion carries no fuel; the model passes
`g.length + 1`, which the sufficiency argument inside the proofs shows is
never exhausted on the reachable states (the fuel-out branch returns
`true`, so a `false` result is always fuel-independent, and the
soundness lemma discharges the fuel-out branch by a counting argument). -/

/-- A job dependency graph: job ID to its `Dependencies` list. -/
abbrev JobGraph := List (String × List String)

/-- The job IDs (Go map keys). -/
def jobIDs (g : JobGraph) : List String := g.map Prod.fst

/-- The `Dependencies` of a job (`[]` for an absent job; `hasCycle` only
reaches present jobs). -/
def depsOf (g : JobGraph) (v : String) : List String := (alookup g v).getD []

/-- The `needs` edge relation: job `a` depends on job `b`. -/
def NeedsEdge (g : JobGraph) (a b : String) : Prop := b ∈ depsOf g a

instance (g : JobGraph) (a b : String) : Decidable (NeedsEdge g a b) := by
  unfold NeedsEdge
  infer_instance

/-- The missing-dependency scan of `validateDependencies`: the first
`(jobID, depID)` whose target is not a job. -/
def firstMissing (g : JobGraph) : Option (String × String) :=
  g.findSome? (fun p =>
    (p.2.find? (fun d => (alookup g d).isNone)).map (fun d => (p.1, d)))

mutual
/-- Translation of `JobScheduler.hasCycle`: mark `v` visited and on the
recursion stack, scan its dependencies, then pop `v` from the stack.
Fuel-out (unreachable under the counting invariant) reports `true`. -/
def hasCycleDFS (g : JobGraph) (fuel : Nat) (v : String)
    (visited recStack : List String) : Bool × List String × List String :=
  match fuel with
  | 0 => (true, visited, recStack)
  | f + 1 =>
    match scanDeps g f (depsOf g v) (v :: visited) (v :: recStack) with
    | (true, vis, rs) => (true, vis, rs)
    | (false, vis, rs) => (false, vis, rs.erase v)
termination_by (fuel, 0)

/-- The `for _, depID := range jobState.Dependencies` loop of `hasCycle`:
recurse into unvisited dependencies, report a back-edge when a
dependency is on the recursion stack. -/
def scanDeps (g : JobGraph) (fuel : Nat) (ds : List String)
    (visited recStack : List String) : Bool × List String × List String :=
  match ds with
  | [] => (false, visited, recStack)
  | d :: rest =>
    if d ∈ visited then
      if d ∈ recStack then (true, visited, recStack)
      else scanDeps g fuel rest visited recStack
    else
      match hasCycleDFS g fuel d visited recStack with
      | (true, vis, rs) => (true, vis, rs)
      | (false, vis, rs) => scanDeps g fuel rest vis rs
termination_by (fuel, ds.length + 1)
end

/-- The `for jobID := range s.jobs` loop of `validateDependencies`
driving the DFS from every unvisited job. -/
def detectCycleLoop (g : JobGraph) :
    List String → List String → List String → Option String
  | [], _, _ => none
  | jobID :: rest, visited, recStack =>
    if jobID ∈ visited then detectCycleLoop g rest visited recStack
    else
      match hasCycleDFS g (g.length + 1) jobID visited recStack with
      | (true, _, _) => some jobID
      | (false, vis, rs) => detectCycleLoop g rest vis rs

/-- The two errors of `validateDependencies`. -/
inductive ValidationError where
  | missingDependency (jobID depID : String)
  | circularDependency (jobID : String)
deriving DecidableEq, Repr

/-- Translation of `JobScheduler.validateDependencies`: the
missing-dependency scan runs first, then the cycle detection. -/
def validateDependencies (g : JobGraph) : Option ValidationError :=
  match firstMissing g with
  | some (jobID, depID) => some (.missingDependency jobID depID)
  | none =>
    match detectCycleLoop g (jobIDs g) [] [] with
    | some jobID => some (.circularDependency jobID)
    | none => none

/-- A reverse-topological finish order: each node is listed after all of
its dependencies have been listed (the list head finished last).  This is
the certificate extracted from a cycle-free DFS run. -/
inductive TopoOrd (g : JobGraph) : List String → Prop where
  | nil : TopoOrd g []
  | cons (u : String) (L : List String) : TopoOrd g L → u ∉ L →
      (∀ d ∈ depsOf g u, d ∈ L) → TopoOrd g (u :: L)

theorem topo_suffix (g : JobGraph) :
    ∀ L, TopoOrd g L → ∀ v ∈ L,
      ∃ L2, TopoOrd g (v :: L2) ∧ (∀ x ∈ v :: L2, x ∈ L) := by
  intro L hL
  induction hL with
  | nil => intro v hv; simp at hv
  | cons u L' htopo hnotin hdeps ih =>
    intro v hv
    rcases List.mem_cons.mp hv with hvu | hvL
    · subst hvu
      exact ⟨L', TopoOrd.cons v L' htopo hnotin hdeps, fun x hx => hx⟩
    · obtain ⟨L2, h1, h2⟩ := ih v hvL
      exact ⟨L2, h1, fun x hx => List.mem_cons_of_mem u (h2 x hx)⟩

theorem topo_step (g : JobGraph) (v : String) (L2 : List String)
    (h : TopoOrd g (v :: L2)) (d : String) (hd : NeedsEdge g v d) : d ∈ L2 := by
  cases h with
  | cons _ _ _ _ hdeps => exact hdeps d hd

theorem topo_reach (g : JobGraph) (w : String) :
    ∀ v, Relation.TransGen (NeedsEdge g) v w →
      ∀ L2, TopoOrd g (v :: L2) → w ∈ L2 := by
  intro v htrans
  induction htrans using Relation.TransGen.head_induction_on with
  | base h =>
    intro L2 hL2
    exact topo_step g _ L2 hL2 w h
  | ih hac htrans ihc =>
    intro L2 hL2
    rename_i a c
    have hcL2 : c ∈ L2 := topo_step g a L2 hL2 c hac
    have htail : TopoOrd g L2 := by
      cases hL2 with
      | cons _ _ ht _ _ => exact ht
    obtain ⟨L2', h1, h2⟩ := topo_suffix g L2 htail c hcL2
    have hw := ihc L2' h1
    exact h2 w (List.mem_cons_of_mem c hw)

theorem topo_no_cycle (g : JobGraph) (L : List String) (h : TopoOrd g L) :
    ∀ v ∈ L, ¬ Relation.TransGen (NeedsEdge g) v v := by
  intro v hv hcyc
  obtain ⟨L2, h1, _⟩ := topo_suffix g L h v hv
  have hvL2 : v ∈ L2 := topo_reach g v v hcyc L2 h1
  cases h1 with
  | cons _ _ _ hnotin _ => exact hnotin hvL2

/-- The recursion stack is a dependency chain: each entry is a
dependency of the entry below it (the caller). -/
inductive StackChain (g : JobGraph) : List String → Prop where
  | nil : StackChain g []
  | single (v : String) : StackChain g [v]
  | cons (v w : String) (rest : List String) : NeedsEdge g w v →
      StackChain g (w :: rest) → StackChain g (v :: w :: rest)

theorem chain_reach (g : JobGraph) :
    ∀ rs, StackChain g rs → ∀ d ∈ rs, ∀ top rest, rs = top :: rest →
      Relation.ReflTransGen (NeedsEdge g) d top := by
  intro rs hchain
  induction hchain with
  | nil => intro d hd; simp at hd
  | single v =>
    intro d hd top rest heq
    have hd' : d = v := List.mem_singleton.mp hd
    have htop : top = v := by injection heq with h1 _; exact h1.symm
    rw [hd', htop]
  | cons v w rest hvw hchain ih =>
    intro d hd top rest' heq
    have htop : top = v := by injection heq with h1 _; exact h1.symm
    subst htop
    rcases List.mem_cons.mp hd with hdv | hdw
    · rw [hdv]
    · have hpath : Relation.ReflTransGen (NeedsEdge g) d w :=
        ih d hdw w rest rfl
      exact Relation.ReflTransGen.tail hpath hvw

/-- The DFS state invariant for cycle-free runs: the recursion stack is
contained in the visited set, and the finished nodes (visited and off
the stack) admit a reverse-topological finish order. -/
def DFSInv (g : JobGraph) (visited recStack : List String) : Prop :=
  (∀ x ∈ recStack, x ∈ visited) ∧
  ∃ L, TopoOrd g L ∧ ∀ x, x ∈ L ↔ (x ∈ visited ∧ x ∉ recStack)

theorem DFSInv_push (g : JobGraph) (v : String) (visited recStack : List String)
    (hInv : DFSInv g visited recStack) (hv : v ∉ visited) :
    DFSInv g (v :: visited) (v :: recStack) := by
  obtain ⟨hsub, L, hL, hiff⟩ := hInv
  refine ⟨?_, L, hL, ?_⟩
  · intro x hx
    rcases List.mem_cons.mp hx with h | h
    · exact h ▸ List.mem_cons_self v visited
    · exact List.mem_cons_of_mem v (hsub x h)
  · intro x
    constructor
    · intro hx
      have := (hiff x).mp hx
      have hxv : x ≠ v := by
        intro hc
        rw [hc] at this
        exact hv this.1
      refine ⟨List.mem_cons_of_mem v this.1, ?_⟩
      intro hc
      rcases List.mem_cons.mp hc with h | h
      · exact hxv h
      · exact this.2 h
    · intro ⟨hx1, hx2⟩
      have hxv : x ≠ v := by
        intro hc
        exact hx2 (hc ▸ List.mem_cons_self v recStack)
      rcases List.mem_cons.mp hx1 with h | h
      · exact absurd h hxv
      · exact (hiff x).mpr ⟨h, fun hc => hx2 (List.mem_cons_of_mem v hc)⟩

/-- The number of job IDs not yet visited; the DFS fuel bound. -/
def countUnvisited (g : JobGraph) (visited : List String) : Nat :=
  ((jobIDs g).filter (fun x => x ∉ visited)).length

theorem filter_not_mem_sublist (ids : List String) (visited bigger : List String)
    (h : ∀ x ∈ visited, x ∈ bigger) :
    List.Sublist (ids.filter (fun x => x ∉ bigger)) (ids.filter (fun x => x ∉ visited)) := by
  apply List.monotone_filter_right
  intro a ha
  simp only [decide_eq_true_eq] at ha ⊢
  exact fun hc => ha (h a hc)

theorem filter_not_mem_le (ids : List String) (visited bigger : List String)
    (h : ∀ x ∈ visited, x ∈ bigger) :
    (ids.filter (fun x => x ∉ bigger)).length ≤
      (ids.filter (fun x => x ∉ visited)).length :=
  (filter_not_mem_sublist ids visited bigger h).length_le

theorem filter_not_mem_lt (ids : List String) (visited : List String) (v : String)
    (hv : v ∈ ids) (hnv : v ∉ visited) :
    (ids.filter (fun x => x ∉ v :: visited)).length <
      (ids.filter (fun x => x ∉ visited)).length := by
  have hsub := filter_not_mem_sublist ids visited (v :: visited)
    (fun x hx => List.mem_cons_of_mem v hx)
  have hv1 : v ∈ ids.filter (fun x => x ∉ visited) :=
    List.mem_filter.mpr ⟨hv, by simp [hnv]⟩
  have hv2 : v ∉ ids.filter (fun x => x ∉ v :: visited) := by
    intro hc
    have := (List.mem_filter.mp hc).2
    simp at this
  apply Nat.lt_of_le_of_ne hsub.length_le
  intro he
  exact hv2 (by rw [hsub.eq_of_length he]; exact hv1)

theorem countUnvisited_cons_lt (g : JobGraph) (visited : List String) (v : String)
    (hv : v ∈ jobIDs g) (hnv : v ∉ visited) :
    countUnvisited g (v :: visited) < countUnvisited g visited :=
  filter_not_mem_lt (jobIDs g) visited v hv hnv

theorem countUnvisited_mono (g : JobGraph) (visited bigger : List String)
    (h : ∀ x ∈ visited, x ∈ bigger) :
    countUnvisited g bigger ≤ countUnvisited g visited :=
  filter_not_mem_le (jobIDs g) visited bigger h

theorem countUnvisited_le_length (g : JobGraph) (visited : List String) :
    countUnvisited g visited ≤ g.length := by
  calc countUnvisited g visited ≤ (jobIDs g).length := List.length_filter_le _ _
    _ = g.length := List.length_map g Prod.fst

theorem alookup_isSome_of_mem_jobIDs (g : JobGraph) (k : String)
    (h : k ∈ jobIDs g) : (alookup g k).isSome = true := by
  rw [alookup_isSome]
  obtain ⟨p, hp, hpk⟩ := List.mem_map.mp h
  exact ⟨p, hp, hpk⟩

theorem mem_jobIDs_of_edge (g : JobGraph) (a b : String) (h : NeedsEdge g a b) :
    a ∈ jobIDs g := by
  unfold NeedsEdge depsOf at h
  cases hl : alookup g a with
  | none => rw [hl] at h; simp at h
  | some ds =>
    have : (alookup g a).isSome = true := by rw [hl]; rfl
    rw [alookup_isSome] at this
    obtain ⟨p, hp, hpk⟩ := this
    exact hpk ▸ List.mem_map_of_mem Prod.fst hp

theorem alookup_mem {α : Type} (l : List (String × α)) (k : String) (x : α)
    (h : alookup l k = some x) : (k, x) ∈ l := by
  induction l with
  | nil => simp [alookup] at h
  | cons p rest ih =>
    by_cases hp : p.1 = k
    · rw [alookup, if_pos hp] at h
      have : p = (k, x) := by
        obtain ⟨p1, p2⟩ := p
        simp at hp h
        exact Prod.ext hp h
      exact this ▸ List.mem_cons_self p rest
    · rw [alookup, if_neg hp] at h
      exact List.mem_cons_of_mem p (ih h)

theorem depsOf_mem_jobIDs (g : JobGraph)
    (hg : ∀ p ∈ g, ∀ d ∈ p.2, d ∈ jobIDs g) (v : String) (hv : v ∈ jobIDs g) :
    ∀ d ∈ depsOf g v, d ∈ jobIDs g := by
  intro d hd
  unfold depsOf at hd
  cases hl : alookup g v with
  | none => rw [hl] at hd; simp at hd
  | some ds =>
    rw [hl] at hd
    simp at hd
    exact hg (v, ds) (alookup_mem g v ds hl) d hd

/-- Invariant preservation for a `false` result of `hasCycle`. -/
def DfsFalseStmt (g : JobGraph) (fuel : Nat) : Prop :=
  ∀ v visited recStack b vis' rs',
    hasCycleDFS g fuel v visited recStack = (b, vis', rs') → b = false →
    DFSInv g visited recStack → v ∈ jobIDs g → v ∉ visited →
    (rs' = recStack ∧ (∀ x ∈ visited, x ∈ vis') ∧ v ∈ vis' ∧ DFSInv g vis' recStack)

/-- Invariant preservation for a `false` result of the dependency scan. -/
def ScanFalseStmt (g : JobGraph) (fuel : Nat) : Prop :=
  ∀ ds visited recStack b vis' rs',
    scanDeps g fuel ds visited recStack = (b, vis', rs') → b = false →
    DFSInv g visited recStack → (∀ d ∈ ds, d ∈ jobIDs g) →
    (rs' = recStack ∧ (∀ x ∈ visited, x ∈ vis') ∧ DFSInv g vis' recStack ∧
      (∀ d ∈ ds, d ∈ vis' ∧ d ∉ recStack))

theorem scanFalse_of_dfsFalse (g : JobGraph) (fuel : Nat)
    (hdfs : DfsFalseStmt g fuel) : ScanFalseStmt g fuel := by
  intro ds
  induction ds with
  | nil =>
    intro visited recStack b vis' rs' heq hb hInv _
    simp only [scanDeps, Prod.mk.injEq] at heq
    obtain ⟨h1, h2, h3⟩ := heq
    subst h1; subst h2; subst h3
    exact ⟨rfl, fun x hx => hx, hInv, by simp⟩
  | cons d rest ih =>
    intro visited recStack b vis' rs' heq hb hInv hds
    simp only [scanDeps] at heq
    by_cases hdv : d ∈ visited
    · rw [if_pos hdv] at heq
      by_cases hdr : d ∈ recStack
      · rw [if_pos hdr] at heq
        simp only [Prod.mk.injEq] at heq
        rw [← heq.1] at hb
        simp at hb
      · rw [if_neg hdr] at heq
        have hres := ih visited recStack b vis' rs' heq hb hInv
          (fun x hx => hds x (List.mem_cons_of_mem d hx))
        refine ⟨hres.1, hres.2.1, hres.2.2.1, ?_⟩
        intro d' hd'
        rcases List.mem_cons.mp hd' with hdd | hrest'
        · subst hdd
          exact ⟨hres.2.1 d' hdv, hdr⟩
        · exact hres.2.2.2 d' hrest'
    · rw [if_neg hdv] at heq
      rcases hres : hasCycleDFS g fuel d visited recStack with ⟨b1, vis1, rs1⟩
      rw [hres] at heq
      cases b1 with
      | true =>
        simp only [Prod.mk.injEq] at heq
        rw [← heq.1] at hb
        simp at hb
      | false =>
        simp only [] at heq
        have hd_ids : d ∈ jobIDs g := hds d (List.mem_cons_self d rest)
        obtain ⟨hrs1, hsub1, hdin, hInv1⟩ :=
          hdfs d visited recStack false vis1 rs1 hres rfl hInv hd_ids hdv
        rw [hrs1] at heq
        have hres2 := ih vis1 recStack b vis' rs' heq hb hInv1
          (fun x hx => hds x (List.mem_cons_of_mem d hx))
        obtain ⟨h1, h2, h3, h4⟩ := hres2
        refine ⟨h1, fun x hx => h2 x (hsub1 x hx), h3, ?_⟩
        intro d' hd'
        rcases List.mem_cons.mp hd' with hdd | hrest'
        · subst hdd
          exact ⟨h2 d' hdin, fun hc => hdv (hInv.1 d' hc)⟩
        · exact h4 d' hrest'

theorem dfsFalse_succ (g : JobGraph)
    (hg : ∀ p ∈ g, ∀ d ∈ p.2, d ∈ jobIDs g) (f : Nat)
    (hscan : ScanFalseStmt g f) : DfsFalseStmt g (f + 1) := by
  intro v visited recStack b vis' rs' heq hb hInv hvid hvnv
  simp only [hasCycleDFS] at heq
  rcases hres : scanDeps g f (depsOf g v) (v :: visited) (v :: recStack) with ⟨b1, vis1, rs1⟩
  rw [hres] at heq
  cases b1 with
  | true =>
    simp only [Prod.mk.injEq] at heq
    rw [← heq.1] at hb
    simp at hb
  | false =>
    simp only [Prod.mk.injEq] at heq
    obtain ⟨h1, h2, h3⟩ := heq
    have hInvPush := DFSInv_push g v visited recStack hInv hvnv
    have hds_ids : ∀ d ∈ depsOf g v, d ∈ jobIDs g := depsOf_mem_jobIDs g hg v hvid
    obtain ⟨hrs1, hsub1, hInv1, hdeps⟩ :=
      hscan (depsOf g v) (v :: visited) (v :: recStack) false vis1 rs1 hres rfl
        hInvPush hds_ids
    subst hrs1
    have herase : (v :: recStack).erase v = recStack := List.erase_cons_head v recStack
    have hrs' : rs' = recStack := by rw [← h3, herase]
    have hvsub : ∀ x ∈ visited, x ∈ vis' := by
      intro x hx
      rw [← h2]
      exact hsub1 x (List.mem_cons_of_mem v hx)
    have hvin : v ∈ vis' := by
      rw [← h2]
      exact hsub1 v (List.mem_cons_self v visited)
    have hvnr : v ∉ recStack := fun hc => hvnv (hInv.1 v hc)
    refine ⟨hrs', hvsub, hvin, ?_, ?_⟩
    · intro x hx
      exact hvsub x (hInv.1 x hx)
    · obtain ⟨L1, htopo1, hiff1⟩ := hInv1.2
      refine ⟨v :: L1, ?_, ?_⟩
      · refine TopoOrd.cons v L1 htopo1 ?_ ?_
        · intro hc
          have := (hiff1 v).mp hc
          exact (this.2 (List.mem_cons_self v recStack))
        · intro d hd
          have := hdeps d hd
          exact (hiff1 d).mpr ⟨this.1, this.2⟩
      · intro x
        constructor
        · intro hx
          rcases List.mem_cons.mp hx with hxv | hxL
          · subst hxv
            exact ⟨hvin, hvnr⟩
          · have := (hiff1 x).mp hxL
            refine ⟨by rw [← h2]; exact this.1, ?_⟩
            intro hc
            exact this.2 (List.mem_cons_of_mem v hc)
        · intro ⟨hx1, hx2⟩
          by_cases hxv : x = v
          · exact hxv ▸ List.mem_cons_self v L1
          · refine List.mem_cons_of_mem v ((hiff1 x).mpr ⟨by rw [h2]; exact hx1, ?_⟩)
            intro hc
            rcases List.mem_cons.mp hc with h | h
            · exact hxv h
            · exact hx2 h

theorem dfsFalse_all (g : JobGraph)
    (hg : ∀ p ∈ g, ∀ d ∈ p.2, d ∈ jobIDs g) :
    ∀ fuel, DfsFalseStmt g fuel ∧ ScanFalseStmt g fuel := by
  intro fuel
  induction fuel with
  | zero =>
    have hdfs0 : DfsFalseStmt g 0 := by
      intro v visited recStack b vis' rs' heq hb _ _ _
      simp only [hasCycleDFS, Prod.mk.injEq] at heq
      rw [← heq.1] at hb
      simp at hb
    exact ⟨hdfs0, scanFalse_of_dfsFalse g 0 hdfs0⟩
  | succ f ih =>
    have hdfs := dfsFalse_succ g hg f ih.2
    exact ⟨hdfs, scanFalse_of_dfsFalse g (f + 1) hdfs⟩

/-- Soundness of a `true` result of `hasCycle`: a detected back-edge
witnesses a dependency cycle. -/
def DfsTrueStmt (g : JobGraph) (fuel : Nat) : Prop :=
  ∀ v visited recStack,
    (hasCycleDFS g fuel v visited recStack).1 = true →
    DFSInv g visited recStack →
    StackChain g (v :: recStack) →
    countUnvisited g visited ≤ fuel →
    v ∈ jobIDs g → v ∉ visited →
    ∃ w, Relation.TransGen (NeedsEdge g) w w

/-- Soundness of a `true` result of the dependency scan. -/
def ScanTrueStmt (g : JobGraph) (fuel : Nat) : Prop :=
  ∀ ds visited recStack top rest0,
    (scanDeps g fuel ds visited recStack).1 = true →
    DFSInv g visited recStack →
    recStack = top :: rest0 →
    StackChain g recStack →
    (∀ d ∈ ds, NeedsEdge g top d) →
    (∀ d ∈ ds, d ∈ jobIDs g) →
    countUnvisited g visited ≤ fuel →
    ∃ w, Relation.TransGen (NeedsEdge g) w w

theorem dfsTrue_zero (g : JobGraph) : DfsTrueStmt g 0 := by
  intro v visited recStack _ _ _ hcount hvid hvnv
  exfalso
  have : v ∈ (jobIDs g).filter (fun x => x ∉ visited) :=
    List.mem_filter.mpr ⟨hvid, by simp [hvnv]⟩
  have hpos : 0 < countUnvisited g visited := List.length_pos.mpr (fun hc => by
    rw [hc] at this; simp at this)
  omega

theorem scanTrue_of (g : JobGraph) (fuel : Nat)
    (hdfsT : DfsTrueStmt g fuel) (hdfsF : DfsFalseStmt g fuel) :
    ScanTrueStmt g fuel := by
  intro ds
  induction ds with
  | nil =>
    intro visited recStack top rest0 htrue _ _ _ _ _ _
    simp [scanDeps] at htrue
  | cons d rest ih =>
    intro visited recStack top rest0 htrue hInv hrs hchain hedges hids hcount
    simp only [scanDeps] at htrue
    by_cases hdv : d ∈ visited
    · rw [if_pos hdv] at htrue
      by_cases hdr : d ∈ recStack
      · -- back edge: d is on the recursion stack
        have hpath : Relation.ReflTransGen (NeedsEdge g) d top :=
          chain_reach g recStack hchain d hdr top rest0 hrs
        have hedge : NeedsEdge g top d := hedges d (List.mem_cons_self d rest)
        exact ⟨d, Relation.TransGen.tail' hpath hedge⟩
      · rw [if_neg hdr] at htrue
        exact ih visited recStack top rest0 htrue hInv hrs hchain
          (fun x hx => hedges x (List.mem_cons_of_mem d hx))
          (fun x hx => hids x (List.mem_cons_of_mem d hx)) hcount
    · rw [if_neg hdv] at htrue
      rcases hres : hasCycleDFS g fuel d visited recStack with ⟨b1, vis1, rs1⟩
      rw [hres] at htrue
      cases b1 with
      | true =>
        have hchain' : StackChain g (d :: recStack) := by
          rw [hrs]
          exact StackChain.cons d top rest0 (hedges d (List.mem_cons_self d rest))
            (hrs ▸ hchain)
        have : (hasCycleDFS g fuel d visited recStack).1 = true := by
          rw [hres]
        exact hdfsT d visited recStack this hInv hchain' hcount
          (hids d (List.mem_cons_self d rest)) hdv
      | false =>
        simp only [] at htrue
        obtain ⟨hrs1, hsub1, _, hInv1⟩ :=
          hdfsF d visited recStack false vis1 rs1 hres rfl hInv
            (hids d (List.mem_cons_self d rest)) hdv
        rw [hrs1] at htrue
        exact ih vis1 recStack top rest0 htrue hInv1 hrs hchain
          (fun x hx => hedges x (List.mem_cons_of_mem d hx))
          (fun x hx => hids x (List.mem_cons_of_mem d hx))
          (le_trans (countUnvisited_mono g visited vis1 hsub1) hcount)

theorem dfsTrue_succ (g : JobGraph)
    (hg : ∀ p ∈ g, ∀ d ∈ p.2, d ∈ jobIDs g) (f : Nat)
    (hscanT : ScanTrueStmt g f) : DfsTrueStmt g (f + 1) := by
  intro v visited recStack htrue hInv hchain hcount hvid hvnv
  simp only [hasCycleDFS] at htrue
  rcases hres : scanDeps g f (depsOf g v) (v :: visited) (v :: recStack) with ⟨b1, vis1, rs1⟩
  rw [hres] at htrue
  cases b1 with
  | true =>
    have hInvPush := DFSInv_push g v visited recStack hInv hvnv
    have hcount' : countUnvisited g (v :: visited) ≤ f := by
      have := countUnvisited_cons_lt g visited v hvid hvnv
      omega
    have : (scanDeps g f (depsOf g v) (v :: visited) (v :: recStack)).1 = true := by
      rw [hres]
    exact hscanT (depsOf g v) (v :: visited) (v :: recStack) v recStack this
      hInvPush rfl hchain (fun d hd => hd) (depsOf_mem_jobIDs g hg v hvid) hcount'
  | false =>
    simp at htrue

theorem dfsTrue_all (g : JobGraph)
    (hg : ∀ p ∈ g, ∀ d ∈ p.2, d ∈ jobIDs g) :
    ∀ fuel, DfsTrueStmt g fuel ∧ ScanTrueStmt g fuel := by
  intro fuel
  induction fuel with
  | zero =>
    exact ⟨dfsTrue_zero g, scanTrue_of g 0 (dfsTrue_zero g) (dfsFalse_all g hg 0).1⟩
  | succ f ih =>
    have hdfsT := dfsTrue_succ g hg f ih.2
    exact ⟨hdfsT, scanTrue_of g (f + 1) hdfsT (dfsFalse_all g hg (f + 1)).1⟩

theorem transGen_exists_edge {r : String → String → Prop} (a b : String)
    (h : Relation.TransGen r a b) : ∃ c, r a c := by
  induction h with
  | single h => exact ⟨_, h⟩
  | tail _ _ ih => exact ih

theorem DFSInv_initial (g : JobGraph) : DFSInv g [] [] := by
  refine ⟨by simp, [], TopoOrd.nil, ?_⟩
  intro x
  simp

theorem detectCycleLoop_some (g : JobGraph)
    (hg : ∀ p ∈ g, ∀ d ∈ p.2, d ∈ jobIDs g) :
    ∀ order visited, (∀ x ∈ order, x ∈ jobIDs g) → DFSInv g visited [] →
      ∀ j, detectCycleLoop g order visited [] = some j →
      ∃ w, Relation.TransGen (NeedsEdge g) w w := by
  intro order
  induction order with
  | nil =>
    intro visited _ _ j heq
    simp [detectCycleLoop] at heq
  | cons jobID rest ih =>
    intro visited hsub hInv j heq
    simp only [detectCycleLoop] at heq
    by_cases hv : jobID ∈ visited
    · rw [if_pos hv] at heq
      exact ih visited (fun x hx => hsub x (List.mem_cons_of_mem jobID hx)) hInv j heq
    · rw [if_neg hv] at heq
      rcases hres : hasCycleDFS g (g.length + 1) jobID visited [] with ⟨b1, vis1, rs1⟩
      rw [hres] at heq
      cases b1 with
      | true =>
        have hcount : countUnvisited g visited ≤ g.length + 1 := by
          have := countUnvisited_le_length g visited
          omega
        have h1 : (hasCycleDFS g (g.length + 1) jobID visited []).1 = true := by
          rw [hres]
        exact (dfsTrue_all g hg (g.length + 1)).1 jobID visited [] h1 hInv
          (StackChain.single jobID) hcount (hsub jobID (List.mem_cons_self jobID rest)) hv
      | false =>
        obtain ⟨hrs1, _, _, hInv1⟩ :=
          (dfsFalse_all g hg (g.length + 1)).1 jobID visited [] false vis1 rs1 hres rfl
            hInv (hsub jobID (List.mem_cons_self jobID rest)) hv
        rw [hrs1] at heq
        exact ih vis1 (fun x hx => hsub x (List.mem_cons_of_mem jobID hx)) hInv1 j heq

theorem detectCycleLoop_none (g : JobGraph)
    (hg : ∀ p ∈ g, ∀ d ∈ p.2, d ∈ jobIDs g) :
    ∀ order visited, (∀ x ∈ order, x ∈ jobIDs g) → DFSInv g visited [] →
      detectCycleLoop g order visited [] = none →
      ∃ vis', (∀ x ∈ visited, x ∈ vis') ∧ (∀ x ∈ order, x ∈ vis') ∧
        DFSInv g vis' [] := by
  intro order
  induction order with
  | nil =>
    intro visited _ hInv _
    exact ⟨visited, fun x hx => hx, by simp, hInv⟩
  | cons jobID rest ih =>
    intro visited hsub hInv heq
    simp only [detectCycleLoop] at heq
    by_cases hv : jobID ∈ visited
    · rw [if_pos hv] at heq
      obtain ⟨vis', h1, h2, h3⟩ :=
        ih visited (fun x hx => hsub x (List.mem_cons_of_mem jobID hx)) hInv heq
      refine ⟨vis', h1, ?_, h3⟩
      intro x hx
      rcases List.mem_cons.mp hx with h | h
      · exact h ▸ h1 jobID hv
      · exact h2 x h
    · rw [if_neg hv] at heq
      rcases hres : hasCycleDFS g (g.length + 1) jobID visited [] with ⟨b1, vis1, rs1⟩
      rw [hres] at heq
      cases b1 with
      | true => simp at heq
      | false =>
        obtain ⟨hrs1, hmono, hmem, hInv1⟩ :=
          (dfsFalse_all g hg (g.length + 1)).1 jobID visited [] false vis1 rs1 hres rfl
            hInv (hsub jobID (List.mem_cons_self jobID rest)) hv
        rw [hrs1] at heq
        obtain ⟨vis', h1, h2, h3⟩ :=
          ih vis1 (fun x hx => hsub x (List.mem_cons_of_mem jobID hx)) hInv1 heq
        refine ⟨vis', fun x hx => h1 x (hmono x hx), ?_, h3⟩
        intro x hx
        rcases List.mem_cons.mp hx with h | h
        · exact h ▸ h1 jobID hmem
        · exact h2 x h

theorem detectCycleLoop_none_no_cycle (g : JobGraph)
    (hg : ∀ p ∈ g, ∀ d ∈ p.2, d ∈ jobIDs g)
    (heq : detectCycleLoop g (jobIDs g) [] [] = none) :
    ∀ v, ¬ Relation.TransGen (NeedsEdge g) v v := by
  intro v hcyc
  obtain ⟨vis', _, hcover, _, L, hL, hiff⟩ :=
    detectCycleLoop_none g hg (jobIDs g) [] (fun x hx => hx) (DFSInv_initial g) heq
  obtain ⟨c, hc⟩ := transGen_exists_edge v v hcyc
  have hvid : v ∈ jobIDs g := mem_jobIDs_of_edge g v c hc
  have hvL : v ∈ L := (hiff v).mpr ⟨hcover v hvid, by simp⟩
  exact topo_no_cycle g L hL v hvL hcyc

theorem firstMissing_eq_none (g : JobGraph)
    (hg : ∀ p ∈ g, ∀ d ∈ p.2, d ∈ jobIDs g) : firstMissing g = none := by
  rw [firstMissing, List.findSome?_eq_none_iff]
  intro p hp
  have hfind : List.find? (fun d => (alookup g d).isNone) p.2 = none := by
    rw [List.find?_eq_none]
    intro d hd
    have := alookup_isSome_of_mem_jobIDs g d (hg p hp d hd)
    simp only [Option.isNone_iff_eq_none]
    intro hc
    rw [hc] at this
    simp at this
  rw [hfind]
  rfl

/-! ## Job execution scheduler (pkg/executor/executor.go)

Translation of `JobScheduler.executeJobs` and its helpers.  Job statuses
are a total map `String → JobStatus` (the Go `map[string]*JobState`
status field; keys outside the graph are never consulted because every
loop ranges over `s.jobs`); `completedJobs` is a membership list.  The
parallel batch (`go func` per ready job, `wg.Wait`) is serialised in the
ready-list order — one admissible interleaving; the error returned after
a batch is the first failing job's, one admissible receive from
`errorChan`.  The intermediate `Ready`/`Running` statuses are folded into
the batch, which records each ready job's terminal status directly; the
surrounding loop only ever distinguishes `Pending`, `Completed` and
`Failed`.  The `for len(completedJobs) < len(jobs)` loop carries fuel;
fuel-out is reported as its own non-`ok` outcome. -/

/-- The `JobStatus` enumeration of the scheduler. -/
inductive JobStatus where
  | pending
  | ready
  | running
  | completed
  | failed
  | skipped
deriving DecidableEq, Repr

/-- A scheduler state: per-job status, the `completedJobs` set, and the
trace of jobs that have started executing. -/
structure SchedState where
  statuses : String → JobStatus
  completed : List String
  executed : List String

/-- Point update of the status map (`jobState.Status = v`). -/
def setStatus (f : String → JobStatus) (k : String) (v : JobStatus) :
    String → JobStatus :=
  fun x => if x = k then v else f x

/-- Translation of `areDependenciesMet`: every dependency is in
`completedJobs` and is not in the `Failed` status. -/
def areDependenciesMet (completed : List String) (statuses : String → JobStatus)
    (deps : List String) : Bool :=
  deps.all (fun d => decide (d ∈ completed) && !(decide (statuses d = JobStatus.failed)))

/-- Translation of `getReadyJobs`: jobs still `Pending` whose
dependencies are met, in job-map iteration order. -/
def getReadyJobs (g : JobGraph) (completed : List String)
    (statuses : String → JobStatus) : JobGraph :=
  g.filter (fun p =>
    decide (statuses p.1 = JobStatus.pending) && areDependenciesMet completed statuses p.2)

/-- Translation of `getPendingJobs`: jobs still `Pending`. -/
def getPendingJobs (g : JobGraph) (statuses : String → JobStatus) : JobGraph :=
  g.filter (fun p => decide (statuses p.1 = JobStatus.pending))

/-- One batch of ready jobs (`wg.Add`/`go`/`wg.Wait` serialised in list
order): each job runs; success sets `Completed` and records the job in
`completedJobs`, failure sets `Failed`; the returned error is the first
failing job's (`errorChan` receive).  `oracle` gives each job's
success/failure outcome. -/
def runBatch (oracle : String → Bool) :
    JobGraph → SchedState → SchedState × Option String
  | [], st => (st, none)
  | p :: rest, st =>
    if oracle p.1 then
      runBatch oracle rest
        ⟨setStatus st.statuses p.1 JobStatus.completed,
          p.1 :: st.completed, p.1 :: st.executed⟩
    else
      ((runBatch oracle rest
        ⟨setStatus st.statuses p.1 JobStatus.failed,
          st.completed, p.1 :: st.executed⟩).1, some p.1)

/-- The scheduler loop outcome: `ok` (nil error), a failed job's
propagated error, the deadlock error, or fuel exhaustion (unreachable
from the initial state; kept as a distinct non-`ok` outcome). -/
inductive SchedResult where
  | ok
  | jobFailed (id : String)
  | deadlock
  | fuelOut
deriving DecidableEq, Repr

/-- Translation of the `executeJobs` loop: while not all jobs are
completed, collect the ready jobs; none ready with jobs still pending is
the deadlock error, none ready otherwise breaks out; otherwise run the
batch and propagate its first error, if any. -/
def executeJobsLoop (g : JobGraph) (oracle : String → Bool) :
    Nat → SchedState → SchedResult × SchedState
  | 0, st => (SchedResult.fuelOut, st)
  | fuel + 1, st =>
    if st.completed.length < g.length then
      if (getReadyJobs g st.completed st.statuses).isEmpty then
        if (getPendingJobs g st.statuses).isEmpty then (SchedResult.ok, st)
        else (SchedResult.deadlock, st)
      else
        match runBatch oracle (getReadyJobs g st.completed st.statuses) st with
        | (st', some j) => (SchedResult.jobFailed j, st')
        | (st', none) => executeJobsLoop g oracle fuel st'
    else (SchedResult.ok, st)

/-- The state after `initializeJobs`: everything `Pending`, nothing
completed, nothing executed. -/
def initState : SchedState :=
  ⟨fun _ => JobStatus.pending, [], []⟩

/-- The outcome of `ExecuteWorkflow`: a dependency-validation error, or
the scheduler's result. -/
inductive WorkflowOutcome where
  | validationFailed (e : ValidationError)
  | sched (r : SchedResult)
deriving DecidableEq, Repr

/-- Translation of `JobScheduler.ExecuteWorkflow`: initialise job states,
validate dependencies (returning early on error), then execute. -/
def ExecuteWorkflow (g : JobGraph) (oracle : String → Bool) :
    WorkflowOutcome × SchedState :=
  match validateDependencies g with
  | some e => (WorkflowOutcome.validationFailed e, initState)
  | none =>
    match executeJobsLoop g oracle (g.length + 1) initState with
    | (r, st) => (WorkflowOutcome.sched r, st)

theorem runBatch_executed (oracle : String → Bool) :
    ∀ ready st x, x ∈ ((runBatch oracle ready st).1).executed ↔
      (x ∈ st.executed ∨ x ∈ ready.map Prod.fst) := by
  intro ready
  induction ready with
  | nil => intro st x; simp [runBatch]
  | cons p rest ih =>
    intro st x
    simp only [runBatch]
    by_cases ho : oracle p.1
    · rw [if_pos ho, ih]
      simp only [List.map_cons, List.mem_cons]
      tauto
    · rw [if_neg ho]
      simp only []
      rw [ih]
      simp only [List.map_cons, List.mem_cons]
      tauto

theorem runBatch_statuses (oracle : String → Bool) :
    ∀ ready st x, x ∉ ready.map Prod.fst →
      ((runBatch oracle ready st).1).statuses x = st.statuses x := by
  intro ready
  induction ready with
  | nil => intro st x _; simp [runBatch]
  | cons p rest ih =>
    intro st x hx
    simp only [List.map_cons, List.mem_cons] at hx
    push_neg at hx
    simp only [runBatch]
    by_cases ho : oracle p.1
    · rw [if_pos ho, ih _ x hx.2]
      simp [setStatus, hx.1]
    · rw [if_neg ho]
      simp only []
      rw [ih _ x hx.2]
      simp [setStatus, hx.1]

theorem runBatch_completed (oracle : String → Bool) :
    ∀ ready st x, x ∈ ((runBatch oracle ready st).1).completed ↔
      (x ∈ st.completed ∨ (x ∈ ready.map Prod.fst ∧ oracle x = true)) := by
  intro ready
  induction ready with
  | nil => intro st x; simp [runBatch]
  | cons p rest ih =>
    intro st x
    simp only [runBatch]
    by_cases ho : oracle p.1
    · rw [if_pos ho, ih]
      simp only [List.map_cons, List.mem_cons]
      by_cases hx : x = p.1
      · subst hx
        simp [ho]
      · simp only [hx, false_or]
    · rw [if_neg ho]
      simp only []
      rw [ih]
      simp only [List.map_cons, List.mem_cons]
      have hof : oracle p.1 = false := by simpa using ho
      by_cases hx : x = p.1
      · subst hx
        simp [hof]
      · simp only [hx, false_or]

theorem runBatch_error (oracle : String → Bool) :
    ∀ ready st j, (runBatch oracle ready st).2 = some j → oracle j = false := by
  intro ready
  induction ready with
  | nil => intro st j h; simp [runBatch] at h
  | cons p rest ih =>
    intro st j h
    simp only [runBatch] at h
    by_cases ho : oracle p.1
    · rw [if_pos ho] at h
      exact ih _ j h
    · rw [if_neg ho] at h
      simp only [Option.some.injEq] at h
      rw [← h]
      simpa using ho

theorem runBatch_completed_spec (oracle : String → Bool) :
    ∀ ready st, (ready.map Prod.fst).Nodup →
      (∀ p ∈ ready, st.statuses p.1 = JobStatus.pending) →
      (∀ x ∈ st.completed, st.statuses x = JobStatus.completed) →
      st.completed.Nodup →
      ((∀ x ∈ ((runBatch oracle ready st).1).completed,
          ((runBatch oracle ready st).1).statuses x = JobStatus.completed) ∧
        ((runBatch oracle ready st).1).completed.Nodup) := by
  intro ready
  induction ready with
  | nil =>
    intro st _ _ hc hnd
    exact ⟨by simpa [runBatch] using hc, by simpa [runBatch] using hnd⟩
  | cons p rest ih =>
    intro st hnodup hpend hcomp hnd
    have hnodup2 : p.1 ∉ rest.map Prod.fst ∧ (rest.map Prod.fst).Nodup := by
      rw [List.map_cons, List.nodup_cons] at hnodup
      exact hnodup
    have hrestpend : ∀ v, ∀ q ∈ rest,
        (setStatus st.statuses p.1 v) q.1 = JobStatus.pending := by
      intro v q hq
      have hne : q.1 ≠ p.1 := by
        intro hc
        exact hnodup2.1 (hc ▸ List.mem_map_of_mem Prod.fst hq)
      simp only [setStatus]
      rw [if_neg hne]
      exact hpend q (List.mem_cons_of_mem p hq)
    have hcompne : ∀ x ∈ st.completed, x ≠ p.1 := by
      intro x hx hc
      have h1 := hcomp x hx
      have h2 := hpend p (List.mem_cons_self p rest)
      rw [hc, h2] at h1
      exact absurd h1 (by simp)
    simp only [runBatch]
    by_cases ho : oracle p.1
    · rw [if_pos ho]
      apply ih
      · exact hnodup2.2
      · exact hrestpend JobStatus.completed
      · intro x hx
        rcases List.mem_cons.mp hx with h | h
        · simp only [setStatus]
          rw [h, if_pos rfl]
        · simp only [setStatus]
          rw [if_neg (hcompne x h)]
          exact hcomp x h
      · exact List.nodup_cons.mpr ⟨fun hc => hcompne p.1 hc rfl, hnd⟩
    · rw [if_neg ho]
      simp only []
      apply ih
      · exact hnodup2.2
      · exact hrestpend JobStatus.failed
      · intro x hx
        simp only [setStatus]
        rw [if_neg (hcompne x hx)]
        exact hcomp x hx
      · exact hnd

/-- The scheduler-state invariant: `completedJobs` has no duplicates,
only holds job IDs, and only holds jobs in `Completed` status. -/
def StSpec (g : JobGraph) (st : SchedState) : Prop :=
  st.completed.Nodup ∧ (∀ x ∈ st.completed, x ∈ jobIDs g) ∧
  (∀ x ∈ st.completed, st.statuses x = JobStatus.completed)

/-- Every job that transitively needs the doomed job `A` is still
`Pending`, unexecuted and uncompleted, and `A` itself never completes. -/
def BlockedInv (g : JobGraph) (A : String) (st : SchedState) : Prop :=
  A ∉ st.completed ∧
  ∀ x, Relation.TransGen (NeedsEdge g) x A →
    st.statuses x = JobStatus.pending ∧ x ∉ st.executed ∧ x ∉ st.completed

theorem mem_getReadyJobs (g : JobGraph) (completed : List String)
    (statuses : String → JobStatus) (p : String × List String)
    (h : p ∈ getReadyJobs g completed statuses) :
    p ∈ g ∧ statuses p.1 = JobStatus.pending ∧
      areDependenciesMet completed statuses p.2 = true := by
  have := List.mem_filter.mp h
  refine ⟨this.1, ?_, ?_⟩
  · have := this.2
    simp only [Bool.and_eq_true, decide_eq_true_eq] at this
    exact this.1
  · have := this.2
    simp only [Bool.and_eq_true] at this
    exact this.2

theorem getReadyJobs_ids_nodup (g : JobGraph) (hnodup : (jobIDs g).Nodup)
    (completed : List String) (statuses : String → JobStatus) :
    ((getReadyJobs g completed statuses).map Prod.fst).Nodup := by
  apply List.Nodup.sublist _ hnodup
  exact List.Sublist.map Prod.fst (List.filter_sublist g)

theorem blocked_not_ready (g : JobGraph) (hnodup : (jobIDs g).Nodup)
    (A : String) (st : SchedState) (hInv : BlockedInv g A st)
    (x : String) (hx : Relation.TransGen (NeedsEdge g) x A) :
    x ∉ (getReadyJobs g st.completed st.statuses).map Prod.fst := by
  intro hmem
  obtain ⟨p, hp, hpx⟩ := List.mem_map.mp hmem
  obtain ⟨hpg, _, hdeps⟩ := mem_getReadyJobs g st.completed st.statuses p hp
  have hdepsOf : depsOf g x = p.2 := by
    rw [depsOf, ← hpx, alookup_of_nodup_mem g hnodup p hpg]
    rfl
  obtain ⟨d, hxd, hdA⟩ := Relation.TransGen.head'_iff.mp hx
  have hdnc : d ∉ st.completed := by
    rcases Relation.reflTransGen_iff_eq_or_transGen.mp hdA with h | h
    · rw [← h]; exact hInv.1
    · exact (hInv.2 d h).2.2
  have hdmem : d ∈ p.2 := hdepsOf ▸ hxd
  rw [areDependenciesMet, List.all_eq_true] at hdeps
  have := hdeps d hdmem
  simp only [Bool.and_eq_true, decide_eq_true_eq] at this
  exact hdnc this.1

theorem completed_lt_of_missing (g : JobGraph) (hnodup : (jobIDs g).Nodup)
    (completed : List String) (hnd : completed.Nodup)
    (hsub : ∀ x ∈ completed, x ∈ jobIDs g)
    (B : String) (hB : B ∈ jobIDs g) (hBn : B ∉ completed) :
    completed.length < g.length := by
  have hsub' : completed ⊆ (jobIDs g).erase B := by
    intro x hx
    have hne : x ≠ B := fun hc => hBn (hc ▸ hx)
    exact (List.mem_erase_of_ne hne).mpr (hsub x hx)
  have hle : completed.length ≤ ((jobIDs g).erase B).length :=
    (List.Nodup.subperm hnd hsub').length_le
  have herase : ((jobIDs g).erase B).length = (jobIDs g).length - 1 :=
    List.length_erase_of_mem hB
  have hpos : 0 < (jobIDs g).length := List.length_pos.mpr (List.ne_nil_of_mem hB)
  have hlen : (jobIDs g).length = g.length := List.length_map g Prod.fst
  omega

theorem executeJobsLoop_blocked (g : JobGraph) (oracle : String → Bool)
    (A B : String) (hnodup : (jobIDs g).Nodup) (hA : oracle A = false)
    (hBA : Relation.TransGen (NeedsEdge g) B A) :
    ∀ fuel st, StSpec g st → BlockedInv g A st →
      BlockedInv g A (executeJobsLoop g oracle fuel st).2 ∧
      (executeJobsLoop g oracle fuel st).1 ≠ SchedResult.ok ∧
      (∀ j, (executeJobsLoop g oracle fuel st).1 = SchedResult.jobFailed j →
        oracle j = false) := by
  have hBid : B ∈ jobIDs g := by
    obtain ⟨c, hc⟩ := transGen_exists_edge B A hBA
    exact mem_jobIDs_of_edge g B c hc
  intro fuel
  induction fuel with
  | zero =>
    intro st _ hBl
    exact ⟨hBl, by simp [executeJobsLoop], by simp [executeJobsLoop]⟩
  | succ f ih =>
    intro st hSpec hBl
    have hBpend := hBl.2 B hBA
    have hlt : st.completed.length < g.length :=
      completed_lt_of_missing g hnodup st.completed hSpec.1 hSpec.2.1
        B hBid hBpend.2.2
    simp only [executeJobsLoop]
    rw [if_pos hlt]
    by_cases hready : (getReadyJobs g st.completed st.statuses).isEmpty
    · rw [if_pos hready]
      have hpend : ¬ (getPendingJobs g st.statuses).isEmpty := by
        obtain ⟨dsB, hdsB⟩ : ∃ ds, (B, ds) ∈ g := by
          obtain ⟨p, hp, hpk⟩ := List.mem_map.mp hBid
          refine ⟨p.2, ?_⟩
          rw [← hpk]
          rwa [Prod.mk.eta]
        have hmem : (B, dsB) ∈ getPendingJobs g st.statuses := by
          rw [getPendingJobs, List.mem_filter]
          exact ⟨hdsB, by simp [hBpend.1]⟩
        intro hc
        rw [List.isEmpty_iff] at hc
        rw [hc] at hmem
        simp at hmem
      rw [if_neg hpend]
      exact ⟨hBl, by simp, by simp⟩
    · rw [if_neg hready]
      rcases hbatch : runBatch oracle (getReadyJobs g st.completed st.statuses) st
        with ⟨st', err⟩
      have hst'1 : st' = (runBatch oracle (getReadyJobs g st.completed st.statuses) st).1 := by
        rw [hbatch]
      have hBl' : BlockedInv g A st' := by
        constructor
        · rw [hst'1]
          intro hc
          rcases (runBatch_completed oracle _ st A).mp hc with h | h
          · exact hBl.1 h
          · rw [hA] at h; exact absurd h.2 (by simp)
        · intro x hx
          have hnr := blocked_not_ready g hnodup A st hBl x hx
          have hprev := hBl.2 x hx
          refine ⟨?_, ?_, ?_⟩
          · rw [hst'1, runBatch_statuses oracle _ st x hnr]
            exact hprev.1
          · rw [hst'1]
            intro hc
            rcases (runBatch_executed oracle _ st x).mp hc with h | h
            · exact hprev.2.1 h
            · exact hnr h
          · rw [hst'1]
            intro hc
            rcases (runBatch_completed oracle _ st x).mp hc with h | h
            · exact hprev.2.2 h
            · exact hnr h.1
      have hSpec' : StSpec g st' := by
        have hrn := getReadyJobs_ids_nodup g hnodup st.completed st.statuses
        have hrp : ∀ p ∈ getReadyJobs g st.completed st.statuses,
            st.statuses p.1 = JobStatus.pending :=
          fun p hp => (mem_getReadyJobs g st.completed st.statuses p hp).2.1
        obtain ⟨hc1, hc2⟩ :=
          runBatch_completed_spec oracle (getReadyJobs g st.completed st.statuses) st
            hrn hrp hSpec.2.2 hSpec.1
        refine ⟨hst'1 ▸ hc2, ?_, hst'1 ▸ hc1⟩
        · intro x hx
          rw [hst'1] at hx
          rcases (runBatch_completed oracle _ st x).mp hx with h | h
          · exact hSpec.2.1 x h
          · obtain ⟨p, hp, hpk⟩ := List.mem_map.mp h.1
            have hpg := (mem_getReadyJobs g st.completed st.statuses p hp).1
            exact hpk ▸ List.mem_map_of_mem Prod.fst hpg
      cases err with
      | some j =>
        refine ⟨hBl', by simp, ?_⟩
        intro j' hj'
        simp only [SchedResult.jobFailed.injEq] at hj'
        rw [← hj']
        exact runBatch_error oracle _ st j (by rw [hbatch])
      | none => exact ih st' hSpec' hBl'

/-- Claim C1, counterexample: the one-job graph `a ↦ [a, ghost]` has a
dependency cycle (`a` needs itself), yet `validateDependencies` rejects
it with the missing-dependency error for `ghost` — the missing-dependency
scan runs before the cycle DFS, so a cyclic workflow is not necessarily
rejected with a circular-dependency error. -/
theorem c1_counterexample :
    validateDependencies [("a", ["a", "ghost"])] =
      some (ValidationError.missingDependency "a" "ghost") ∧
    Relation.TransGen (NeedsEdge [("a", ["a", "ghost"])]) "a" "a" ∧
    (∀ j, validateDependencies [("a", ["a", "ghost"])] ≠
      some (ValidationError.circularDependency j)) := by
  refine ⟨rfl, Relation.TransGen.single (by decide), ?_⟩
  intro j hj
  rw [show validateDependencies [("a", ["a", "ghost"])] =
      some (ValidationError.missingDependency "a" "ghost") from rfl] at hj
  simp at hj

/-- Claim C1, amended: when every listed dependency names an existing job
(so the missing-dependency scan, which runs first, finds nothing),
`validateDependencies` reports a circular-dependency error exactly when
the `needs` edges contain a cycle; and whenever dependency validation
fails, `ExecuteWorkflow` returns that error with no job having started
executing. -/
theorem c1_amended (g : JobGraph)
    (hg : ∀ p ∈ g, ∀ d ∈ p.2, d ∈ jobIDs g) :
    ((∃ j, validateDependencies g = some (ValidationError.circularDependency j)) ↔
      (∃ v, Relation.TransGen (NeedsEdge g) v v)) ∧
    (∀ e oracle, validateDependencies g = some e →
      (ExecuteWorkflow g oracle).1 = WorkflowOutcome.validationFailed e ∧
      (ExecuteWorkflow g oracle).2.executed = []) := by
  constructor
  · constructor
    · rintro ⟨j, hj⟩
      rw [validateDependencies, firstMissing_eq_none g hg] at hj
      rcases hdet : detectCycleLoop g (jobIDs g) [] [] with _ | j'
      · rw [hdet] at hj
        simp at hj
      · exact detectCycleLoop_some g hg (jobIDs g) [] (fun x hx => hx)
          (DFSInv_initial g) j' hdet
    · rintro ⟨v, hv⟩
      rcases hdet : detectCycleLoop g (jobIDs g) [] [] with _ | j
      · exact absurd hv (detectCycleLoop_none_no_cycle g hg hdet v)
      · refine ⟨j, ?_⟩
        rw [validateDependencies, firstMissing_eq_none g hg, hdet]
  · intro e oracle he
    rw [ExecuteWorkflow, he]
    exact ⟨rfl, rfl⟩

/-- Claim C1, witness: the self-loop graph `a ↦ [a]` is closed, and the
amended equivalence yields the circular-dependency rejection from the
concrete cycle `a → a`. -/
theorem c1_amended_witness :
    (∀ p ∈ [("a", ["a"])], ∀ d ∈ p.2, d ∈ jobIDs [("a", ["a"])]) ∧
    (∃ j, validateDependencies [("a", ["a"])] =
      some (ValidationError.circularDependency j)) :=
  ⟨by decide, (c1_amended [("a", ["a"])] (by decide)).1.mpr
    ⟨"a", Relation.TransGen.single (by decide)⟩⟩

/-- Claim C4, counterexample: in the two-job workflow `a`, `b needs a`
where `a` fails, the scheduler propagates `a`'s failure and `b` never
starts — but `b` is left in the `Pending` status, not `Skipped` or any
other terminal status: the scheduler never assigns `JobStatusSkipped`. -/
theorem c4_counterexample :
    (executeJobsLoop [("a", []), ("b", ["a"])] (fun _ => false) 3 initState).1 =
      SchedResult.jobFailed "a" ∧
    (executeJobsLoop [("a", []), ("b", ["a"])] (fun _ => false) 3 initState).2.statuses "b" =
      JobStatus.pending ∧
    JobStatus.pending ≠ JobStatus.skipped ∧
    "b" ∉ (executeJobsLoop [("a", []), ("b", ["a"])] (fun _ => false) 3 initState).2.executed := by
  decide

/-- Claim C4, amended: if job `A` fails and `B` transitively needs `A`
(for any job outcomes and any job-map iteration order with distinct job
IDs), then `B` never starts executing and is left in the `Pending`
status (never `Skipped`), the run does not end with the scheduler's nil
error, and any propagated job-failure error names a job that failed. -/
theorem c4_amended (g : JobGraph) (oracle : String → Bool) (A B : String)
    (hnodup : (jobIDs g).Nodup) (hA : oracle A = false)
    (hBA : Relation.TransGen (NeedsEdge g) B A) :
    B ∉ (ExecuteWorkflow g oracle).2.executed ∧
    (ExecuteWorkflow g oracle).2.statuses B = JobStatus.pending ∧
    (ExecuteWorkflow g oracle).1 ≠ WorkflowOutcome.sched SchedResult.ok ∧
    (∀ j, (ExecuteWorkflow g oracle).1 =
      WorkflowOutcome.sched (SchedResult.jobFailed j) → oracle j = false) := by
  rcases hval : validateDependencies g with _ | e
  · rcases hloop : executeJobsLoop g oracle (g.length + 1) initState with ⟨r, st⟩
    have hout : ExecuteWorkflow g oracle = (WorkflowOutcome.sched r, st) := by
      rw [ExecuteWorkflow, hval, hloop]
    have hinit : StSpec g initState :=
      ⟨List.nodup_nil, by simp [initState], by simp [initState]⟩
    have hbl : BlockedInv g A initState := by
      refine ⟨by simp [initState], ?_⟩
      intro x _
      exact ⟨rfl, by simp [initState], by simp [initState]⟩
    have hmain := executeJobsLoop_blocked g oracle A B hnodup hA hBA
      (g.length + 1) initState hinit hbl
    rw [hloop] at hmain
    rw [hout]
    refine ⟨(hmain.1.2 B hBA).2.1, (hmain.1.2 B hBA).1, ?_, ?_⟩
    · intro hc
      simp only [WorkflowOutcome.sched.injEq] at hc
      exact hmain.2.1 hc
    · intro j hj
      simp only [WorkflowOutcome.sched.injEq] at hj
      exact hmain.2.2 j hj
  · have hout : ExecuteWorkflow g oracle = (WorkflowOutcome.validationFailed e, initState) := by
      rw [ExecuteWorkflow, hval]
    rw [hout]
    exact ⟨by simp [initState], rfl, by simp, by simp⟩

/-- Claim C4, witness: the amended theorem applied to the concrete
two-job workflow `a`, `b needs a` with every job failing. -/
theorem c4_amended_witness :
    "b" ∉ (ExecuteWorkflow [("a", []), ("b", ["a"])] (fun _ => false)).2.executed ∧
    (ExecuteWorkflow [("a", []), ("b", ["a"])] (fun _ => false)).2.statuses "b" =
      JobStatus.pending ∧
    (ExecuteWorkflow [("a", []), ("b", ["a"])] (fun _ => false)).1 ≠
      WorkflowOutcome.sched SchedResult.ok := by
  have h := c4_amended [("a", []), ("b", ["a"])] (fun _ => false) "a" "b"
    (by decide) rfl (Relation.TransGen.single (by decide))
  exact ⟨h.1, h.2.1, h.2.2.1⟩

/-! ## Action executor (pkg/actions/executor.go)

Translation of `Executor.Execute` and the functions it reaches.  External
effects (action download, metadata file, directory creation, shell and
`node`/`docker` process runs, the `GITHUB_OUTPUT` file) are supplied by a
world value `ExecWorld`; a composite action's steps draw a shell outcome
and a nested world per step, in order.  Return values are
`(Option ActionExecutionResult × Option String)`, the Go
`(*ActionExecutionResult, error)` pair.  Fields the executor never reads
(descriptions, branding, `pre`/`post` scripts, durations) are omitted;
log-only effects (`npm install`, `docker pull`, temp-dir cleanup) have no
observable outcome and are not represented. -/

/-- The parsed components of an `Action` consulted by the executor. -/
structure ActionHandle where
  reference : String
  owner : String
  name : String
  localPath : String
deriving DecidableEq, Repr

/-- A composite action step (`ActionRunStep`): the fields the executor
reads. -/
structure CompositeStep where
  run : String
  uses : String
  shell : String
  env : List (String × String)
  With : List (String × String)
deriving DecidableEq, Repr

/-- The `runs` section of action metadata (`ActionRuns`): the fields the
executor reads. -/
structure ActionRuns where
  usesRuntime : String
  main : String
  image : String
  entrypoint : String
  args : List String
  env : List (String × String)
  steps : List CompositeStep
deriving DecidableEq, Repr

/-- Action metadata (`ActionMetadata`): the fields the executor reads. -/
structure ActionMetadata where
  inputs : List (String × ActionInput)
  runs : ActionRuns
deriving DecidableEq, Repr

/-- The `ActionExecutionResult` returned by the executor (the `Duration`
string is omitted). -/
structure ActionExecutionResult where
  success : Bool
  error : String
  outputs : List (String × String)
deriving DecidableEq, Repr

/-- The external world of one `Execute` call: the outcome of every
side-effecting operation it may perform.  `stepOutcomes` supplies, per
composite step in order, a shell-command outcome `(success, output)` and
a world for a nested `uses:` action. -/
inductive ExecWorld where
  | mk
    (getAction : Except String ActionHandle)
    (loadMeta : Except String ActionMetadata)
    (mkdirErr : Option String)
    (stepOutcomes : List ((Bool × String) × ExecWorld))
    (outputRead : Option String)
    (nodeAvailable : Bool)
    (dockerAvailable : Bool)
    (statMain : Bool)
    (buildResult : Bool × String)
    (cmdResult : Bool × String)

/-- Go `strings.ToLower` (ASCII model). -/
def goToLower (s : String) : String :=
  String.mk (s.data.map Char.toLower)

/-- Go `strings.HasPrefix s p`. -/
def goStartsWith (s p : String) : Bool :=
  List.isPrefixOf p.data s.data

/-- Go `strings.ReplaceAll` for one-character patterns. -/
def goReplaceChar (s : String) (a b : Char) : String :=
  String.mk (s.data.map (fun c => if c = a then b else c))

/-- Merging one map into another (`for k, v := range upd ... base[k] = v`). -/
def mergeAssoc (base upd : List (String × String)) : List (String × String) :=
  upd.foldl (fun acc p => assocSet acc p.1 p.2) base

/-- One line of a `GITHUB_OUTPUT` file: trimmed, non-empty lines
containing `=` contribute `key=value` split at the first `=`. -/
def parseOutputLine (outputs : List (String × String)) (line : Str) :
    List (String × String) :=
  if goTrimSpace line ≠ [] ∧ (goTrimSpace line).contains '=' then
    assocSet outputs
      (String.mk ((goTrimSpace line).takeWhile (fun c => c ≠ '=')))
      (String.mk (((goTrimSpace line).dropWhile (fun c => c ≠ '=')).tail))
  else outputs

/-- Reading the outputs back from the `GITHUB_OUTPUT` file: a failed read
is silently skipped, otherwise the content is split on newlines. -/
def parseGithubOutput : Option String → List (String × String)
  | none => []
  | some data => (goSplit '\n' data.data).foldl parseOutputLine []

/-- The composite executor's reconstruction of the inputs map from the
`INPUT_`-prefixed environment entries (lowercased, `_` back to `-`). -/
def compositeInputs (env : EnvMap) : List (Str × Str) :=
  (env.filter (fun p => goStartsWith p.1 "INPUT_")).map
    (fun p =>
      (((p.1.data.drop 6).map (fun c => if c = '_' then '-' else c)).map Char.toLower,
        p.2.data))

/-- Translation of `executeShellStep`: the command never yields a Go
error; failure becomes an unsuccessful result, success carries the
trimmed output as the `message` output. -/
def executeShellStepW (ok : Bool) (out : String) :
    Option ActionExecutionResult × Option String :=
  if ok then
    (some ⟨true, "",
      if goTrimSpace out.data = [] then []
      else [("message", String.mk (goTrimSpace out.data))]⟩, none)
  else (some ⟨false, "Command failed: " ++ out, []⟩, none)

/-- Translation of `executeNodeActionOnHost` (the `npm install` attempt
is log-only): missing `main`, missing script file, temp-dir failure, then
the `node` run with outputs read back. -/
def executeNodeOnHostW (statMain : Bool) (mkdirErr : Option String)
    (outputRead : Option String) (cmdResult : Bool × String)
    (action : ActionHandle) (metadata : ActionMetadata) :
    Option ActionExecutionResult × Option String :=
  if metadata.runs.main = "" then
    (some ⟨false, "Node.js action missing 'main' script in runs configuration", []⟩, none)
  else if ¬ statMain then
    (some ⟨false, "Main script not found: " ++
      (action.localPath ++ "/" ++ metadata.runs.main), []⟩, none)
  else
    match mkdirErr with
    | some msg => (none, some ("failed to create temporary directory: " ++ msg))
    | none =>
      if cmdResult.1 then (some ⟨true, "", parseGithubOutput outputRead⟩, none)
      else (some ⟨false, "Node.js action failed: " ++ cmdResult.2,
        parseGithubOutput outputRead⟩, none)

/-- Translation of `executeNodeActionInContainer`: missing `main`,
temp-dir failure, then the containerised `node` run. -/
def executeNodeInContainerW (mkdirErr : Option String)
    (outputRead : Option String) (cmdResult : Bool × String)
    (metadata : ActionMetadata) :
    Option ActionExecutionResult × Option String :=
  if metadata.runs.main = "" then
    (some ⟨false, "Node.js action missing 'main' script in runs configuration", []⟩, none)
  else
    match mkdirErr with
    | some msg => (none, some ("failed to create temporary directory: " ++ msg))
    | none =>
      if cmdResult.1 then (some ⟨true, "", parseGithubOutput outputRead⟩, none)
      else (some ⟨false, "Container Node.js action failed: " ++ cmdResult.2,
        parseGithubOutput outputRead⟩, none)

/-- Translation of `executeNodeAction`: container mode when the
`_VERMONT_` variables request it, otherwise host execution guarded by
`node` availability. -/
def executeNodeW (nodeAvailable statMain : Bool) (mkdirErr : Option String)
    (outputRead : Option String) (cmdResult : Bool × String)
    (action : ActionHandle) (metadata : ActionMetadata) (env : EnvMap) :
    Option ActionExecutionResult × Option String :=
  if alookup env "_VERMONT_CONTAINER_MODE" = some "true" ∧
      (alookup env "_VERMONT_CONTAINER_IMAGE").getD "" ≠ "" then
    executeNodeInContainerW mkdirErr outputRead cmdResult metadata
  else if ¬ nodeAvailable then
    (some ⟨false,
      "Node.js runtime not available. Please install Node.js or use a container with Node.js",
      []⟩, none)
  else executeNodeOnHostW statMain mkdirErr outputRead cmdResult action metadata

/-- The tail of `executeDockerAction` after the image is resolved:
temp-dir failure, then the `docker run` with outputs read back (a failed
registry pull is log-only). -/
def dockerRunW (mkdirErr : Option String) (outputRead : Option String)
    (cmdResult : Bool × String) : Option ActionExecutionResult × Option String :=
  match mkdirErr with
  | some msg => (none, some ("failed to create temporary directory: " ++ msg))
  | none =>
    if cmdResult.1 then (some ⟨true, "", parseGithubOutput outputRead⟩, none)
    else (some ⟨false, "Docker action failed: " ++ cmdResult.2,
      parseGithubOutput outputRead⟩, none)

/-- Translation of `executeDockerAction`: `docker` availability, missing
`image`, then image resolution — a `docker://` reference and a registry
image run directly, a local Dockerfile (`./` prefix or no `:`) is built
first and a failed build is an unsuccessful result. -/
def executeDockerW (dockerAvailable : Bool) (mkdirErr : Option String)
    (outputRead : Option String) (buildResult cmdResult : Bool × String)
    (metadata : ActionMetadata) : Option ActionExecutionResult × Option String :=
  if ¬ dockerAvailable then
    (some ⟨false, "Docker runtime not available. Please install Docker or use host execution",
      []⟩, none)
  else if metadata.runs.image = "" then
    (some ⟨false, "Docker action missing 'image' in runs configuration", []⟩, none)
  else if goStartsWith metadata.runs.image "docker://" then
    dockerRunW mkdirErr outputRead cmdResult
  else if goStartsWith metadata.runs.image "./" ∨
      ¬ (metadata.runs.image.data.contains ':') then
    if buildResult.1 then dockerRunW mkdirErr outputRead cmdResult
    else (some ⟨false, "Failed to build Docker image: " ++ buildResult.2, []⟩, none)
  else dockerRunW mkdirErr outputRead cmdResult

mutual
/-- Translation of `Executor.Execute` and, inlined, of `executeAction`
and `executeCompositeAction`: fetch the action, load its metadata (each
failure an unsuccessful result with nil error), validate inputs, build
the action environment, and dispatch on the lowercased `runs.using`.
The composite branch checks for steps, builds the template processor
from the `INPUT_` variables, creates the temp directory (the only source
of a non-nil Go error), adds `GITHUB_OUTPUT`, runs the steps, and merges
the outputs read back from the file. -/
def executeW : ExecWorld → String → List (String × String) → EnvMap →
    Option ActionExecutionResult × Option String
  | ExecWorld.mk getAction loadMeta mkdirErr stepOutcomes outputRead
      nodeAvailable dockerAvailable statMain buildResult cmdResult,
      _reference, inputs, env =>
    match getAction with
    | Except.error msg =>
      (some ⟨false, "failed to get action: " ++ msg, []⟩, none)
    | Except.ok action =>
      match loadMeta with
      | Except.error msg =>
        (some ⟨false, "failed to load action metadata: " ++ msg, []⟩, none)
      | Except.ok metadata =>
        match validateInputs metadata.inputs inputs with
        | some emsg =>
          (some ⟨false, "input validation failed: " ++ emsg, []⟩, none)
        | none =>
          if goToLower metadata.runs.usesRuntime = "composite" then
            if metadata.runs.steps = [] then
              (some ⟨false, "composite action has no steps defined", []⟩, none)
            else
              match mkdirErr with
              | some msg =>
                (none, some ("failed to create temporary directory: " ++ msg))
              | none =>
                match runStepsW
                  ⟨compositeInputs (createActionEnvironment
                      ⟨action.reference, action.localPath, metadata.runs.env⟩ inputs env),
                    (createActionEnvironment
                      ⟨action.reference, action.localPath, metadata.runs.env⟩ inputs env).map
                      (fun p => (p.1.data, p.2.data)), []⟩
                  (assocSet
                    (createActionEnvironment
                      ⟨action.reference, action.localPath, metadata.runs.env⟩ inputs env)
                    "GITHUB_OUTPUT"
                    ("/tmp/vermont-action-" ++ goReplaceChar action.reference '/' '-' ++
                      "/github_output"))
                  metadata.runs.steps stepOutcomes 1 with
                | Except.error emsg => (some ⟨false, emsg, []⟩, none)
                | Except.ok stepOutputs =>
                  (some ⟨true, "", mergeAssoc stepOutputs (parseGithubOutput outputRead)⟩,
                    none)
          else if goToLower metadata.runs.usesRuntime = "node12" ∨
              goToLower metadata.runs.usesRuntime = "node16" ∨
              goToLower metadata.runs.usesRuntime = "node20" then
            executeNodeW nodeAvailable statMain mkdirErr outputRead cmdResult action metadata
              (createActionEnvironment
                ⟨action.reference, action.localPath, metadata.runs.env⟩ inputs env)
          else if goToLower metadata.runs.usesRuntime = "docker" then
            executeDockerW dockerAvailable mkdirErr outputRead buildResult cmdResult metadata
          else
            (some ⟨false, "unsupported action runtime: " ++ metadata.runs.usesRuntime, []⟩,
              none)
termination_by w _ _ _ => sizeOf w

/-- Translation of the composite step loop with `executeCompositeStep`
inlined: per step, extend the environment with the templated step `env`,
then run the shell command (`run:`), the nested action (`uses:`, on the
step's world with templated `with:` inputs), or succeed vacuously; a Go
error or unsuccessful result from the step aborts with the indexed
`step N failed` message, otherwise the step's outputs are merged. -/
def runStepsW : TemplateProcessor → EnvMap → List CompositeStep →
    List ((Bool × String) × ExecWorld) → Nat →
    Except String (List (String × String))
  | _, _, [], _, _ => Except.ok []
  | tp, env, step :: rest, ((ok, out), w) :: orest, i =>
    match
      (if step.run ≠ "" then executeShellStepW ok out
       else if step.uses ≠ "" then
         executeW w step.uses
           (step.With.map (fun p => (p.1, String.mk (ProcessTemplate tp p.2.data))))
           (step.env.foldl
             (fun acc p => assocSet acc p.1 (String.mk (ProcessTemplate tp p.2.data))) env)
       else (some ⟨true, "", []⟩, none) :
        Option ActionExecutionResult × Option String) with
    | (_, some e) => Except.error ("step " ++ toString i ++ " failed: " ++ e)
    | (none, none) => Except.error ("step " ++ toString i ++ " failed: ")
    | (some r, none) =>
      if r.success then
        match runStepsW tp env rest orest (i + 1) with
        | Except.error e => Except.error e
        | Except.ok outs => Except.ok (mergeAssoc r.outputs outs)
      else Except.error ("step " ++ toString i ++ " failed: " ++ r.error)
  | _, _, _ :: _, [], i =>
    Except.error ("step " ++ toString i ++ " failed: no recorded outcome")
termination_by _ _ _ outcomes _ => sizeOf outcomes
end

/-- The contract of `Execute`: either an action-level outcome — a non-nil
result with nil Go error, unsuccessful only with a non-empty error
string — or the temp-dir creation failure as a non-nil Go error. -/
def GoodOutcome (res : Option ActionExecutionResult × Option String) : Prop :=
  (∃ r, res = (some r, none) ∧ (r.success = false → r.error ≠ "")) ∨
  (∃ msg, res = (none, some ("failed to create temporary directory: " ++ msg)))

/-- The contract of the composite step loop: merged outputs, or a
non-empty error message. -/
def GoodStepsOutcome (res : Except String (List (String × String))) : Prop :=
  (∃ outs, res = Except.ok outs) ∨ (∃ e, res = Except.error e ∧ e ≠ "")

theorem data_append_ne_nil_left (s t : String) (h : s.data ≠ []) :
    (s ++ t).data ≠ [] := by
  rw [String.data_append]
  intro hc
  exact h (List.append_eq_nil.mp hc).1

theorem append_ne_empty (s t : String) (h : s.data ≠ []) : s ++ t ≠ "" := by
  intro hc
  have h2 := congrArg String.data hc
  rw [String.data_append] at h2
  exact h (List.append_eq_nil.mp h2).1

theorem executeShellStepW_good (ok : Bool) (out : String) :
    GoodOutcome (executeShellStepW ok out) := by
  unfold executeShellStepW
  split
  · exact Or.inl ⟨_, rfl, by intro hc; simp at hc⟩
  · exact Or.inl ⟨_, rfl, fun _ => append_ne_empty _ _ (by decide)⟩

theorem dockerRunW_good (mkdirErr : Option String) (outputRead : Option String)
    (cmdResult : Bool × String) :
    GoodOutcome (dockerRunW mkdirErr outputRead cmdResult) := by
  unfold dockerRunW
  cases mkdirErr with
  | some msg => exact Or.inr ⟨msg, rfl⟩
  | none =>
    by_cases h : cmdResult.1
    · rw [if_pos h]
      exact Or.inl ⟨_, rfl, by intro hc; simp at hc⟩
    · rw [if_neg h]
      exact Or.inl ⟨_, rfl, fun _ => append_ne_empty _ _ (by decide)⟩

theorem executeNodeOnHostW_good (statMain : Bool) (mkdirErr : Option String)
    (outputRead : Option String) (cmdResult : Bool × String)
    (action : ActionHandle) (metadata : ActionMetadata) :
    GoodOutcome (executeNodeOnHostW statMain mkdirErr outputRead cmdResult action metadata) := by
  unfold executeNodeOnHostW
  by_cases h1 : metadata.runs.main = ""
  · rw [if_pos h1]
    exact Or.inl ⟨_, rfl, fun _ => by decide⟩
  · rw [if_neg h1]
    by_cases h2 : statMain
    · rw [if_neg (by simpa using h2)]
      cases mkdirErr with
      | some msg => exact Or.inr ⟨msg, rfl⟩
      | none =>
        by_cases h3 : cmdResult.1
        · rw [if_pos h3]
          exact Or.inl ⟨_, rfl, by intro hc; simp at hc⟩
        · rw [if_neg h3]
          exact Or.inl ⟨_, rfl, fun _ => append_ne_empty _ _ (by decide)⟩
    · rw [if_pos (by simpa using h2)]
      exact Or.inl ⟨_, rfl, fun _ => append_ne_empty _ _ (by decide)⟩

theorem executeNodeInContainerW_good (mkdirErr : Option String)
    (outputRead : Option String) (cmdResult : Bool × String)
    (metadata : ActionMetadata) :
    GoodOutcome (executeNodeInContainerW mkdirErr outputRead cmdResult metadata) := by
  unfold executeNodeInContainerW
  by_cases h1 : metadata.runs.main = ""
  · rw [if_pos h1]
    exact Or.inl ⟨_, rfl, fun _ => by decide⟩
  · rw [if_neg h1]
    cases mkdirErr with
    | some msg => exact Or.inr ⟨msg, rfl⟩
    | none =>
      by_cases h3 : cmdResult.1
      · rw [if_pos h3]
        exact Or.inl ⟨_, rfl, by intro hc; simp at hc⟩
      · rw [if_neg h3]
        exact Or.inl ⟨_, rfl, fun _ => append_ne_empty _ _ (by decide)⟩

theorem executeNodeW_good (nodeAvailable statMain : Bool) (mkdirErr : Option String)
    (outputRead : Option String) (cmdResult : Bool × String)
    (action : ActionHandle) (metadata : ActionMetadata) (env : EnvMap) :
    GoodOutcome (executeNodeW nodeAvailable statMain mkdirErr outputRead cmdResult
      action metadata env) := by
  unfold executeNodeW
  split
  · exact executeNodeInContainerW_good mkdirErr outputRead cmdResult metadata
  · split
    · exact Or.inl ⟨_, rfl, fun _ => by decide⟩
    · exact executeNodeOnHostW_good statMain mkdirErr outputRead cmdResult action metadata

theorem executeDockerW_good (dockerAvailable : Bool) (mkdirErr : Option String)
    (outputRead : Option String) (buildResult cmdResult : Bool × String)
    (metadata : ActionMetadata) :
    GoodOutcome (executeDockerW dockerAvailable mkdirErr outputRead buildResult
      cmdResult metadata) := by
  unfold executeDockerW
  split
  · exact Or.inl ⟨_, rfl, fun _ => by decide⟩
  · split
    · exact Or.inl ⟨_, rfl, fun _ => by decide⟩
    · split
      · exact dockerRunW_good mkdirErr outputRead cmdResult
      · split
        · split
          · exact dockerRunW_good mkdirErr outputRead cmdResult
          · exact Or.inl ⟨_, rfl, fun _ => append_ne_empty _ _ (by decide)⟩
        · exact dockerRunW_good mkdirErr outputRead cmdResult

theorem step_tag_data_ne_nil (i : Nat) :
    (("step " ++ toString i) ++ " failed: ").data ≠ [] :=
  data_append_ne_nil_left _ _ (data_append_ne_nil_left _ _ (by decide))

theorem runStepsW_good :
    ∀ (steps : List CompositeStep) (tp : TemplateProcessor) (env : EnvMap)
      (outcomes : List ((Bool × String) × ExecWorld)) (i : Nat),
      GoodStepsOutcome (runStepsW tp env steps outcomes i) := by
  intro steps
  induction steps with
  | nil =>
    intro tp env outcomes i
    rw [runStepsW]
    exact Or.inl ⟨[], rfl⟩
  | cons step rest ih =>
    intro tp env outcomes i
    cases outcomes with
    | nil =>
      rw [runStepsW]
      exact Or.inr ⟨_, rfl, append_ne_empty _ _ (data_append_ne_nil_left _ _ (by decide))⟩
    | cons o orest =>
      rcases o with ⟨⟨ok, out⟩, w⟩
      rw [runStepsW]
      split
      · exact Or.inr ⟨_, rfl, append_ne_empty _ _ (step_tag_data_ne_nil i)⟩
      · exact Or.inr ⟨_, rfl, append_ne_empty _ _ (data_append_ne_nil_left _ _ (by decide))⟩
      · rename_i r _
        split
        · split
          · rename_i e heq
            rcases ih tp env orest (i + 1) with ⟨outs, h2⟩ | ⟨e', h2, hne⟩
            · rw [h2] at heq
              cases heq
            · rw [h2] at heq
              cases heq
              exact Or.inr ⟨_, rfl, hne⟩
          · exact Or.inl ⟨_, rfl⟩
        · exact Or.inr ⟨_, rfl, append_ne_empty _ _ (step_tag_data_ne_nil i)⟩

theorem executeW_good :
    ∀ (w : ExecWorld) (reference : String) (inputs : List (String × String))
      (env : EnvMap), GoodOutcome (executeW w reference inputs env) := by
  intro w reference inputs env
  rcases w with ⟨ga, lm, mkd, so, ord, na, da, sm, br, cr⟩
  cases ga with
  | error msg =>
    rw [executeW]
    exact Or.inl ⟨_, rfl, fun _ => append_ne_empty _ _ (by decide)⟩
  | ok action =>
    cases lm with
    | error msg =>
      rw [executeW]
      exact Or.inl ⟨_, rfl, fun _ => append_ne_empty _ _ (by decide)⟩
    | ok metadata =>
      cases mkd with
      | some msg =>
        rw [executeW]
        split
        · exact Or.inl ⟨_, rfl, fun _ => append_ne_empty _ _ (by decide)⟩
        · split
          · split
            · exact Or.inl ⟨_, rfl, fun _ => by decide⟩
            · exact Or.inr ⟨msg, rfl⟩
          · split
            · exact executeNodeW_good na sm (some msg) ord cr action metadata _
            · split
              · exact executeDockerW_good da (some msg) ord br cr metadata
              · exact Or.inl ⟨_, rfl, fun _ => append_ne_empty _ _ (by decide)⟩
      | none =>
        rw [executeW]
        split
        · exact Or.inl ⟨_, rfl, fun _ => append_ne_empty _ _ (by decide)⟩
        · split
          · split
            · exact Or.inl ⟨_, rfl, fun _ => by decide⟩
            · split
              · rename_i e heq
                rcases runStepsW_good metadata.runs.steps _ _ so 1 with
                  ⟨outs, h2⟩ | ⟨e', h2, hne⟩
                · rw [h2] at heq
                  cases heq
                · rw [h2] at heq
                  cases heq
                  exact Or.inl ⟨_, rfl, fun _ => hne⟩
              · exact Or.inl ⟨_, rfl, by intro hc; simp at hc⟩
          · split
            · exact executeNodeW_good na sm none ord cr action metadata _
            · split
              · exact executeDockerW_good da none ord br cr metadata
              · exact Or.inl ⟨_, rfl, fun _ => append_ne_empty _ _ (by decide)⟩

/-- Claim C10: for every world (every outcome of the external
operations), reference and input map, `Execute` reports action-level
failures — unfetchable action, missing or invalid metadata, failed input
validation, unsupported runtime, failed shell, node, docker or nested
step — as a non-nil `ActionExecutionResult` with nil Go error, where an
unsuccessful result always carries a non-empty `Error` string; a non-nil
Go error arises only from temporary-directory creation, carrying the
`failed to create temporary directory:` message, with a nil result. -/
theorem c10_execute_error_contract :
    ∀ (w : ExecWorld) (reference : String) (inputs : List (String × String))
      (env : EnvMap),
      (∃ r, executeW w reference inputs env = (some r, none) ∧
        (r.success = false → r.error ≠ "")) ∨
      (∃ msg, executeW w reference inputs env =
        (none, some ("failed to create temporary directory: " ++ msg))) :=
  fun w reference inputs env => executeW_good w reference inputs env

end Vermont
